import Mathlib

/-!
Text-based video editor: cut algebra, export zones and deletion.

A shallow embedding of `VideoTextEdit::processedZones`,
`VideoTextEdit::getInsertZones`, `VideoTextEdit::rebuildZones`,
`VideoTextEdit::mouseReleaseEvent`, `VideoTextEdit::blockClicked`,
`VideoTextEdit::checkHoverBlock`, `VideoTextEdit::cleanup`,
`TextBasedEdit::deleteItem`, `TextBasedEdit::startRecognition`,
`TextBasedEdit::slotProcessSpeech` and `TextBasedEdit::slotProcessSpeechStatus`
from `src/dialogs/textbasededit.cpp`, with the properties stated for them in the
specification.

Frames are C++ `int`s. `processedZones` only compares and copies them, so they
are embedded as `Int` without wrap-around.
-/

namespace Kdenlive

/-- A `QPoint` used as a zone: `x` is the first frame, `y` the last frame. -/
structure QPoint where
  x : Int
  y : Int
deriving DecidableEq, Repr

/-- The inner loop of `processedZones` for a zone that was already cut
(`for (auto &subCut : resultZone)`, lines 161-181).

The first argument after the cut is the part of `resultZone` still to be
visited. The C++ range-for reads `begin()` and `end()` once, so the loop visits
the fragments that were in `resultZone` on entry, and the fragments appended
during the pass are not visited in that pass. `subCut` is read as the value the
fragment had on entry (an append that reallocates the vector leaves the C++
reference dangling; the embedding does not follow that). The pair carried along
is (`resultZone`, `zonesToRemove`). -/
def splitSubCuts (cut : QPoint) :
    List QPoint → List QPoint × List QPoint → List QPoint × List QPoint
  | [], st => st
  | subCut :: rest, (resultZone, zonesToRemove) =>
    if cut.x > subCut.x then
      if cut.x > subCut.y then
        -- cut is outside
        splitSubCuts cut rest (resultZone, zonesToRemove)
      else if cut.y > subCut.y then
        -- Only keep the start of this zone
        splitSubCuts cut rest
          (resultZone ++ [⟨subCut.x, cut.x⟩], zonesToRemove ++ [subCut])
      else
        splitSubCuts cut rest
          (resultZone ++ [⟨subCut.x, cut.x⟩, ⟨cut.y, subCut.y⟩], zonesToRemove ++ [subCut])
    else if cut.y < subCut.y then
      -- Only keep the end of this zone
      splitSubCuts cut rest
        (resultZone ++ [⟨cut.y, subCut.y⟩], zonesToRemove ++ [subCut])
    else
      splitSubCuts cut rest (resultZone, zonesToRemove)

/-- The local variables of one pass of the outer loop of `processedZones`
(`cutted`, `resultZone`) together with the function-wide `zonesToRemove`. -/
structure ZoneState where
  cutted : Bool
  resultZone : List QPoint
  zonesToRemove : List QPoint
deriving DecidableEq, Repr

/-- One iteration of `for (auto &cut : cutZones)` for the source zone `zone`
(lines 136-183). -/
def cutStep (zone : QPoint) (st : ZoneState) (cut : QPoint) : ZoneState :=
  if !st.cutted then
    if cut.x > zone.x then
      if cut.x > zone.y then
        -- Cut is outside zone
        st
      else if cut.y > zone.y then
        -- Only keep the start of this zone
        { cutted := true
          resultZone := st.resultZone ++ [⟨zone.x, cut.x⟩]
          zonesToRemove := st.zonesToRemove ++ [cut] }
      else
        { cutted := true
          resultZone := st.resultZone ++ [⟨zone.x, cut.x⟩, ⟨cut.y, zone.y⟩]
          zonesToRemove := st.zonesToRemove ++ [cut] }
    else if cut.y < zone.y then
      -- Only keep the end of this zone
      { cutted := true
        resultZone := st.resultZone ++ [⟨cut.y, zone.y⟩]
        zonesToRemove := st.zonesToRemove ++ [cut] }
    else
      st
  else
    -- Check in already cutted zones
    let r := splitSubCuts cut st.resultZone (st.resultZone, st.zonesToRemove)
    { cutted := true, resultZone := r.1, zonesToRemove := r.2 }

/-- One iteration of `for (auto &zone : sourceZones)` (lines 133-189). The pair
is (`resultZones`, `zonesToRemove`). -/
def zoneStep (cutZones : List QPoint) (acc : List QPoint × List QPoint) (zone : QPoint) :
    List QPoint × List QPoint :=
  let st := cutZones.foldl (cutStep zone)
    { cutted := false, resultZone := [], zonesToRemove := acc.2 }
  (if !st.cutted then acc.1 ++ [zone] else acc.1 ++ st.resultZone, st.zonesToRemove)

/-- The method `QVector::removeAll`: drops every element equal to `t`. -/
def removeAll (v : List QPoint) (t : QPoint) : List QPoint :=
  v.filter (fun p => decide (p ≠ t))

/-- The method `VideoTextEdit::processedZones` (lines 127-195). The member
`cutZones` is passed as the first argument. -/
def processedZones (cutZones sourceZones : List QPoint) : List QPoint :=
  let acc := sourceZones.foldl (zoneStep cutZones) ([], [])
  acc.2.foldl removeAll acc.1

/-- Modelled from the spec: the frame conversion `GenTime(sec).frames(fps)`, whose
class `GenTime` is not among the sources. Section 4.1 gives it as
"`secondsToFrames(sec, fps) → frame`: floor of `sec * fps`". Seconds are taken as
exact rationals. -/
def secondsToFrames (fps : ℚ) (sec : ℚ) : Int :=
  ⌊sec * fps⌋

/-- The call `speechZones.at(bk)`: `none` stands for an index out of range, on
which `QVector::at` asserts. -/
def zoneAt {T : Type} (speechZones : List (T × T)) (bk : Int) : Option (T × T) :=
  if 0 ≤ bk then speechZones[bk.toNat]? else none

/-- The local variables of the block walk of `getInsertZones` (lines 267-271). -/
structure BlockWalk where
  zones : List QPoint
  zoneStart : Int
  zoneEnd : Int
  currentEnd : Int
  currentStart : Int
deriving DecidableEq, Repr

/-- The values of the locals before the loop: `zones` empty, the four frames -1. -/
def BlockWalk.init : BlockWalk :=
  { zones := [], zoneStart := -1, zoneEnd := -1, currentEnd := -1, currentStart := -1 }

/-- One iteration of `for (auto &bk : m_selectedBlocks)` (lines 273-285). The
conversion `GenTime(t).frames(pCore->getCurrentFps())` is the parameter `frames`. -/
def blockStep {T : Type} (frames : T → Int) (speechZones : List (T × T))
    (st : BlockWalk) (bk : Int) : Option BlockWalk :=
  match zoneAt speechZones bk with
  | none => none
  | some z =>
    let currentStart := frames z.1
    let currentEnd := frames z.2
    if st.zoneStart < 0 then
      some { zones := st.zones, zoneStart := currentStart, zoneEnd := currentEnd,
             currentEnd := currentEnd, currentStart := currentStart }
    else if currentStart - st.zoneEnd > 1 then
      -- Insert last zone
      some { zones := st.zones ++ [⟨st.zoneStart, st.zoneEnd⟩], zoneStart := currentStart,
             zoneEnd := currentEnd, currentEnd := currentEnd, currentStart := currentStart }
    else
      some { zones := st.zones, zoneStart := st.zoneStart, zoneEnd := currentEnd,
             currentEnd := currentEnd, currentStart := currentStart }

/-- The method `VideoTextEdit::getInsertZones` (lines 197-291).

* `frames` is `GenTime(t).frames(pCore->getCurrentFps())`;
* `textZone` is the outcome of the text-cursor walk of lines 201-260: the pair
  (`startMs`, `endMs`) decoded from the two anchors, or `none` when an anchor is
  empty;
* `selectedBlocks` is `m_selectedBlocks`, in stored order.

The result is `none` when `speechZones.at(bk)` is out of range. -/
def getInsertZones {T : Type} (frames : T → Int) (textZone : Option (T × T))
    (speechZones : List (T × T)) (cutZones : List QPoint) (selectedBlocks : List Int) :
    Option (List QPoint) :=
  if selectedBlocks.isEmpty then
    -- return text selection, not blocks
    match textZone with
    | some (startMs, endMs) => some (processedZones cutZones [⟨frames startMs, frames endMs⟩])
    | none => some []
  else
    match selectedBlocks.foldlM (blockStep frames speechZones) BlockWalk.init with
    | none => none
    | some st => some (processedZones cutZones (st.zones ++ [⟨st.currentStart, st.currentEnd⟩]))

/-! ## The transcript document and its text cursor

`QTextDocument` and `QTextCursor` belong to the Qt library. They are embedded here
as far as `mouseReleaseEvent`, `deleteItem` and `rebuildZones` use them: a document
is its sequence of characters, each with the href of the anchor it lies in, and
blocks are separated by the paragraph separator U+2029. A cursor position `p` is
the gap before character `p`. -/

/-- The href of an anchor, `"<clip>#<start>:<end>"` as `slotProcessSpeech` builds it
(line 865), kept as its three fields: `startSec` is what
`section('#', 1).section(':', 0, 0).toDouble()` reads from the string, `endSec` what
`section('#', 1).section(':', 1, 1).toDouble()` reads. -/
structure Href where
  clip : String
  startSec : ℚ
  endSec : ℚ
deriving DecidableEq, Repr

/-- One character of the document. `href = none` stands for a character outside
every anchor, where `anchorAt` gives the empty string. -/
structure Cell where
  ch : Char
  href : Option Href
deriving DecidableEq, Repr

/-- The separator between two blocks, as Qt stores it in the document. -/
def paragraphSeparator : Char := Char.ofNat 0x2029

/-- Whether a character ends a block. -/
def Cell.isSeparator (c : Cell) : Bool := c.ch == paragraphSeparator

/-- The attribute `whiteSpace` of the text engine. -/
def Cell.whiteSpace (c : Cell) : Bool := c.ch.isWhitespace

/-- The test `QTextEngine::atWordSeparator`: the punctuation that separates words,
given by code point (from `.` `,` `?` `!` to `|` and the backslash). -/
def Cell.atWordSeparator (c : Cell) : Bool :=
  [46, 44, 63, 33, 64, 35, 36, 58, 59, 45, 60, 62, 91, 93, 40, 41, 123, 125, 61, 47, 43, 37,
    38, 94, 42, 39, 34, 96, 126, 124, 92].contains c.ch.toNat

/-- A `QTextCursor`: `anchor` and `position`; the selection is what lies between. -/
structure TextCursor where
  anchor : Nat
  position : Nat
deriving DecidableEq, Repr

/-- The method `QTextCursor::selectionStart`. -/
def TextCursor.selectionStart (c : TextCursor) : Nat := min c.anchor c.position

/-- The method `QTextCursor::selectionEnd`. -/
def TextCursor.selectionEnd (c : TextCursor) : Nat := max c.anchor c.position

/-- The test `selectedText().isEmpty()`. -/
def TextCursor.selectionIsEmpty (c : TextCursor) : Bool := c.anchor == c.position

/-- The method `QTextDocument::characterCount`: the characters and the separator
that closes the last block. -/
def characterCount (doc : List Cell) : Nat := doc.length + 1

/-- The method `QTextDocument::blockCount`. -/
def blockCount (doc : List Cell) : Nat := (doc.filter Cell.isSeparator).length + 1

/-- Position of the first character of the block that holds position `p`. -/
def blockStart (doc : List Cell) (p : Nat) : Nat :=
  p - ((doc.take p).reverse.takeWhile (fun c => !c.isSeparator)).length

/-- Position right before the separator of the block that holds position `p`. -/
def blockEnd (doc : List Cell) (p : Nat) : Nat :=
  p + ((doc.drop p).takeWhile (fun c => !c.isSeparator)).length

/-- The characters of the block that holds position `p`, without its separator. -/
def blockText (doc : List Cell) (p : Nat) : List Cell :=
  (doc.drop (blockStart doc p)).take (blockEnd doc p - blockStart doc p)

/-- Walks back from `pos` over the characters of `blk` that satisfy `f`. -/
def skipBack (f : Cell → Bool) (blk : List Cell) (pos : Nat) : Nat :=
  pos - ((blk.take pos).reverse.takeWhile f).length

/-- Walks forward from `pos` over the characters of `blk` that satisfy `f`. -/
def skipAhead (f : Cell → Bool) (blk : List Cell) (pos : Nat) : Nat :=
  pos + ((blk.drop pos).takeWhile f).length

/-- The word step of `QTextLayout::previousCursorPosition` (mode `SkipWords`) inside
one block: skip white space, then either a run of separators or a run of word
characters. -/
def previousWordPosition (blk : List Cell) (oldPos : Nat) : Nat :=
  if oldPos = 0 ∨ oldPos > blk.length then oldPos
  else
    let p := skipBack Cell.whiteSpace blk oldPos
    if p > 0 ∧ (blk[p - 1]?.map Cell.atWordSeparator) = some true then
      skipBack Cell.atWordSeparator blk (p - 1)
    else
      skipBack (fun c => !c.whiteSpace && !c.atWordSeparator) blk p

/-- The move `QTextCursor::StartOfWord`. The result `none` is the early
`return false` of Qt (at the end of a block, after white space or a separator),
which leaves the cursor where it is. -/
def startOfWord (doc : List Cell) (position : Nat) : Option Nat :=
  let start := blockStart doc position
  let blk := blockText doc position
  let relativePos := position - start
  if relativePos = 0 then some position
  else if relativePos = blk.length ∧
      (blk[relativePos - 1]?.map (fun c => c.whiteSpace || c.atWordSeparator)) = some true then
    none
  else
    let next := if relativePos < blk.length then relativePos + 1 else relativePos
    some (start + previousWordPosition blk next)

/-- The move `QTextCursor::EndOfWord`; `none` is its `return false` at the end of a
block. -/
def endOfWord (doc : List Cell) (position : Nat) : Option Nat :=
  let start := blockStart doc position
  let blk := blockText doc position
  let relativePos := position - start
  if relativePos ≥ blk.length then none
  else if (blk[relativePos]?.map Cell.atWordSeparator) = some true then
    some (start + skipAhead Cell.atWordSeparator blk (relativePos + 1))
  else
    some (start + skipAhead (fun c => !c.whiteSpace && !c.atWordSeparator) blk relativePos)

/-- The method `QTextCursor::setPosition(pos)` with `MoveAnchor`. A position outside
the document is refused and the cursor is left as it is. -/
def TextCursor.setPosition (doc : List Cell) (c : TextCursor) (pos : Int) : TextCursor :=
  if 0 ≤ pos ∧ pos < characterCount doc then { anchor := pos.toNat, position := pos.toNat }
  else c

/-- The method `QTextCursor::setPosition(pos, KeepAnchor)`. -/
def TextCursor.setPositionKeepAnchor (doc : List Cell) (c : TextCursor) (pos : Int) :
    TextCursor :=
  if 0 ≤ pos ∧ pos < characterCount doc then { anchor := c.anchor, position := pos.toNat }
  else c

/-- The call `movePosition(StartOfWord, MoveAnchor)`. -/
def TextCursor.moveStartOfWord (doc : List Cell) (c : TextCursor) : TextCursor :=
  match startOfWord doc c.position with
  | some p => { anchor := p, position := p }
  | none => c

/-- The call `movePosition(EndOfWord, KeepAnchor)`. -/
def TextCursor.moveEndOfWordKeepAnchor (doc : List Cell) (c : TextCursor) : TextCursor :=
  match endOfWord doc c.position with
  | some p => { anchor := c.anchor, position := p }
  | none => c

/-- The call `select(QTextCursor::WordUnderCursor)`: the selection is cleared, the
cursor moves to the start of the word and, keeping the anchor, to its end. -/
def TextCursor.selectWordUnderCursor (doc : List Cell) (c : TextCursor) : TextCursor :=
  TextCursor.moveEndOfWordKeepAnchor doc
    (TextCursor.moveStartOfWord doc { anchor := c.position, position := c.position })

/-- The call `anchorAt(cursorRect(cursor).center())`: the href under the caret. The
callers put the caret at `selStart + (selEnd - selStart) / 2` of a selected word;
for a word of two or more characters the caret is then strictly inside the word and
the characters on both sides of it carry the href of that word. The embedding reads
the character after the caret. -/
def anchorAtCursor (doc : List Cell) (c : TextCursor) : Option Href :=
  match doc[c.position]? with
  | some cell => cell.href
  | none => none

/-- The state of the editor: the members of `VideoTextEdit` that the embedded
methods read or write, its document and its text cursor. -/
structure Editor where
  doc : List Cell
  textCursor : TextCursor
  clipOffset : ℚ
  speechZones : List (ℚ × ℚ)
  cutZones : List QPoint
  selectedBlocks : List Int
  hoveredBlock : Int
  lastClickedBlock : Int
deriving DecidableEq, Repr

/-- The call `movePosition(EndOfBlock, MoveAnchor)`. -/
def TextCursor.moveEndOfBlock (doc : List Cell) (c : TextCursor) : TextCursor :=
  { anchor := blockEnd doc c.position, position := blockEnd doc c.position }

/-- The call `movePosition(NextBlock, MoveAnchor)`; in the last block the cursor
stays where it is. -/
def TextCursor.moveNextBlock (doc : List Cell) (c : TextCursor) : TextCursor :=
  if blockEnd doc c.position < doc.length then
    { anchor := blockEnd doc c.position + 1, position := blockEnd doc c.position + 1 }
  else c

/-- The position `selStart + (selEnd - selStart) / 2` at which the callers put the
caret before they ask for the anchor. -/
def TextCursor.selectionMiddle (c : TextCursor) : Int :=
  (c.selectionStart : Int) + ((c.selectionEnd : Int) - (c.selectionStart : Int)) / 2

/-- The loop `while (selectedText().isEmpty() && start < limit) { start++; ... }`
of `rebuildZones` and `deleteItem`. The first argument bounds the number of
iterations; the callers pass `limit - start`, which the loop cannot exceed. -/
def seekForward (doc : List Cell) (limit : Int) : Nat → Int → TextCursor → Int × TextCursor
  | 0, start, c => (start, c)
  | n + 1, start, c =>
    if c.selectionIsEmpty ∧ start < limit then
      seekForward doc limit n (start + 1)
        (TextCursor.selectWordUnderCursor doc (TextCursor.setPosition doc c (start + 1)))
    else (start, c)

/-- The loop `while (selectedText().isEmpty() && end > start) { end--; ... }`. The
first argument bounds the number of iterations; the callers pass `end - start`. -/
def seekBackward (doc : List Cell) (start : Int) : Nat → Int → TextCursor → Int × TextCursor
  | 0, e, c => (e, c)
  | n + 1, e, c =>
    if c.selectionIsEmpty ∧ e > start then
      seekBackward doc start n (e - 1)
        (TextCursor.selectWordUnderCursor doc (TextCursor.setPosition doc c (e - 1)))
    else (e, c)

/-- The decoding `anchor.section('#', 1).section(':', 0, 0).toDouble()`: the start
field, and 0 for the empty string. -/
def hrefStartSec : Option Href → ℚ
  | some h => h.startSec
  | none => 0

/-- The decoding `anchor.section('#', 1).section(':', 1, 1).toDouble()`: the end
field, and 0 for the empty string. -/
def hrefEndSec : Option Href → ℚ
  | some h => h.endSec
  | none => 0

/-- One pass of the loop of `rebuildZones` over the blocks (lines 84-116). The pair
is the cursor `curs` and `speechZones`. -/
def rebuildBlock (doc : List Cell) (clipOffset : ℚ) (st : TextCursor × List (ℚ × ℚ)) :
    TextCursor × List (ℚ × ℚ) :=
  let start : Int := (st.1.position : Int) + 1
  let c1 := TextCursor.selectWordUnderCursor doc (TextCursor.setPosition doc st.1 start)
  let r1 := seekForward doc (characterCount doc) ((characterCount doc : Int) - start).toNat start c1
  let c2 := TextCursor.setPosition doc r1.2 r1.2.selectionMiddle
  let anchorStart := anchorAtCursor doc c2
  let c3 := TextCursor.moveEndOfBlock doc c2
  let e : Int := (c3.position : Int) - 1
  let c4 := TextCursor.selectWordUnderCursor doc (TextCursor.setPosition doc c3 e)
  let r2 := seekBackward doc r1.1 (e - r1.1).toNat e c4
  let c5 := TextCursor.setPosition doc r2.2 r2.2.selectionMiddle
  let anchorEnd := anchorAtCursor doc c5
  let zones :=
    if anchorStart.isSome ∧ anchorEnd.isSome then
      st.2 ++ [(hrefStartSec anchorStart + clipOffset, hrefEndSec anchorEnd + clipOffset)]
    else st.2
  (TextCursor.moveNextBlock doc c5, zones)

/-- The method `VideoTextEdit::rebuildZones` (lines 77-119). -/
def rebuildZones (ed : Editor) : Editor :=
  let r := (List.range (blockCount ed.doc)).foldl
    (fun st _ => rebuildBlock ed.doc ed.clipOffset st) (({ anchor := 0, position := 0 } : TextCursor), [])
  { ed with speechZones := r.2, selectedBlocks := [] }

/-- The method `VideoTextEdit::mouseReleaseEvent` (lines 494-519), applied to the
state that the handler of the base class leaves. -/
def mouseReleaseEvent (ed : Editor) : Editor :=
  let cursor := ed.textCursor
  let ed1 : Editor :=
    if !cursor.selectionIsEmpty then
      -- We have a selection, ensure full word is selected
      let start : Int := cursor.selectionStart
      let e : Int := cursor.selectionEnd
      let c1 := TextCursor.moveStartOfWord ed.doc (TextCursor.setPosition ed.doc cursor start)
      let c2 := TextCursor.moveEndOfWordKeepAnchor ed.doc
        (TextCursor.setPositionKeepAnchor ed.doc c1 e)
      let pos := c2.position
      let atBlockEnd : Bool := pos == blockEnd ed.doc pos
      let lastIsSpace : Bool :=
        pos ≥ 1 && (ed.doc[pos - 1]?.map (fun c => c.ch == ' ')) == some true
      let c3 :=
        if !atBlockEnd ∧ !lastIsSpace then
          TextCursor.setPositionKeepAnchor ed.doc c2 ((pos : Int) + 1)
        else c2
      { ed with textCursor := c3 }
    else ed
  if !ed1.selectedBlocks.isEmpty then { ed1 with selectedBlocks := [] } else ed1

/-- The method `QTextCursor::removeSelectedText` on the cursor of the editor. -/
def removeSelectedText (ed : Editor) : Editor :=
  let s := ed.textCursor.selectionStart
  let e := ed.textCursor.selectionEnd
  { ed with doc := ed.doc.take s ++ ed.doc.drop e, textCursor := { anchor := s, position := s } }

/-- A cursor position after the character at index `k` was deleted: Qt moves the
positions behind it one to the left. -/
def shiftAfterErase (k : Nat) (c : TextCursor) : TextCursor :=
  { anchor := if c.anchor > k then c.anchor - 1 else c.anchor,
    position := if c.position > k then c.position - 1 else c.position }

/-- The loop of `deleteItem` that deletes the empty blocks (lines 988-999). The
arguments are the counter `i`, the document, the cursor `curs` and the text cursor
of the widget. On an empty block `select(BlockUnderCursor)` selects nothing,
`removeSelectedText` does nothing and `deleteChar` deletes the separator that
follows, if there is one. The first argument bounds the number of iterations by
the number of blocks at the start. -/
def deleteEmptyBlocks : Nat → Nat → List Cell → TextCursor → TextCursor → List Cell × TextCursor
  | 0, _, doc, _, w => (doc, w)
  | n + 1, i, doc, curs, w =>
    if i < blockCount doc then
      let blkStart := curs.position
      let c1 := TextCursor.moveEndOfBlock doc curs
      let blkEnd := c1.position
      if blkStart = blkEnd ∧ blkEnd < doc.length then
        -- Empty block, delete
        deleteEmptyBlocks n (i + 1) (doc.eraseIdx blkEnd)
          (TextCursor.moveNextBlock (doc.eraseIdx blkEnd) c1) (shiftAfterErase blkEnd w)
      else
        deleteEmptyBlocks n (i + 1) doc (TextCursor.moveNextBlock doc c1) w
    else (doc, w)

/-- The method `TextBasedEdit::deleteItem` (lines 942-1003). `frames` is
`GenTime(t).frames(pCore->getCurrentFps())`. -/
def deleteItem (frames : ℚ → Int) (ed : Editor) : Editor :=
  let cursor := ed.textCursor
  let start : Int := cursor.selectionStart
  let e : Int := cursor.selectionEnd
  let ed1 : Editor :=
    if e > start then
      let c1 := TextCursor.selectWordUnderCursor ed.doc (TextCursor.setPosition ed.doc cursor start)
      let r1 := seekForward ed.doc e (e - start).toNat start c1
      let c2 := TextCursor.setPosition ed.doc r1.2 r1.2.selectionMiddle
      let anchorStart := anchorAtCursor ed.doc c2
      let c3 := TextCursor.selectWordUnderCursor ed.doc (TextCursor.setPosition ed.doc c2 e)
      let r2 := seekBackward ed.doc r1.1 (e - r1.1).toNat e c3
      let c4 := TextCursor.setPosition ed.doc r2.2 r2.2.selectionMiddle
      let anchorEnd := anchorAtCursor ed.doc c4
      -- the source tests `anchorEnd` twice and never `anchorStart`
      if anchorEnd.isSome ∧ anchorEnd.isSome then
        let startMs := hrefStartSec anchorStart + ed.clipOffset
        let endMs := hrefEndSec anchorEnd + ed.clipOffset
        if startMs < endMs then
          removeSelectedText
            { ed with cutZones := ed.cutZones ++ [⟨frames startMs, frames endMs⟩] }
        else ed
      else ed
    else
      let r := deleteEmptyBlocks (blockCount ed.doc) 0 ed.doc { anchor := 0, position := 0 }
        ed.textCursor
      { ed with doc := r.1, textCursor := r.2 }
  -- Reset selection and rebuild line numbers
  rebuildZones ed1

/-- The cells of a word of the transcript: its characters, all inside one anchor. -/
def wordCells (w : String) (h : Href) : List Cell :=
  w.toList.map (fun c => { ch := c, href := some h })

/-- The space that `slotProcessSpeech` puts between two anchors. -/
def spaceCell : Cell := { ch := ' ', href := none }

/-- A block of five words, each one second long: "one two three four five". -/
def fiveWords : List Cell :=
  wordCells "one" ⟨"2", 0, 1⟩ ++ [spaceCell] ++ wordCells "two" ⟨"2", 1, 2⟩ ++ [spaceCell] ++
  wordCells "three" ⟨"2", 2, 3⟩ ++ [spaceCell] ++ wordCells "four" ⟨"2", 3, 4⟩ ++ [spaceCell] ++
  wordCells "five" ⟨"2", 4, 5⟩

/-- An editor that shows `doc` with the selection (`anchor`, `position`) that a
drag of the mouse leaves, no cut yet and no block selected. -/
def editorWith (doc : List Cell) (anchor position : Nat) (zones : List (ℚ × ℚ)) : Editor :=
  { doc := doc, textCursor := { anchor := anchor, position := position }, clipOffset := 0,
    speechZones := zones, cutZones := [], selectedBlocks := [], hoveredBlock := -1,
    lastClickedBlock := -1 }

/-! ## Block selection: `blockClicked` -/

/-- The two keyboard modifiers that `blockClicked` tests. -/
structure Modifiers where
  control : Bool
  shift : Bool
deriving DecidableEq, Repr

/-- The indices visited by `for (int i = qMin(..); i <= qMax(..); i++)`:
`lo`, `lo + 1`, ..., `hi`. -/
def blockRange (lo hi : Int) : List Int :=
  (List.range (hi + 1 - lo).toNat).map (fun (k : Nat) => lo + (k : Int))

/-- The body of that loop: `if (!m_selectedBlocks.contains(i)) m_selectedBlocks << i`. -/
def addIfMissing (sel : List Int) (i : Int) : List Int :=
  if sel.contains i then sel else sel ++ [i]

/-- The method `VideoTextEdit::blockClicked` (lines 338-384). The requests to the
clip monitor (seek, zone, play) leave the editor unchanged and are left out. The
text cursor goes to the start of the document, `m_hoveredBlock` blocks down, and
then, keeping the anchor, to the end of that block. -/
def blockClicked (modifiers : Modifiers) (ed : Editor) : Editor :=
  if ed.hoveredBlock > -1 ∧ ed.hoveredBlock < ed.speechZones.length then
    let selected : List Int :=
      if ed.selectedBlocks.contains ed.hoveredBlock then
        if modifiers.control then
          -- remove from selection on ctrl+click an already selected block
          ed.selectedBlocks.filter (fun b => b != ed.hoveredBlock)
        else [ed.hoveredBlock]
      else
        -- Add to selection
        if modifiers.control then ed.selectedBlocks ++ [ed.hoveredBlock]
        else if modifiers.shift then
          if ed.lastClickedBlock > -1 then
            (blockRange (min ed.lastClickedBlock ed.hoveredBlock)
              (max ed.lastClickedBlock ed.hoveredBlock)).foldl addIfMissing ed.selectedBlocks
          else [ed.hoveredBlock]
        else [ed.hoveredBlock]
    let lastClicked := if ed.hoveredBlock ≥ 0 then ed.hoveredBlock else ed.lastClickedBlock
    let c := Nat.iterate (TextCursor.moveNextBlock ed.doc) ed.hoveredBlock.toNat
      { anchor := 0, position := 0 }
    { ed with selectedBlocks := selected, lastClickedBlock := lastClicked,
              textCursor := { anchor := c.position, position := blockEnd ed.doc c.position } }
  else ed

/-! ## Recognition: `startRecognition` and `slotProcessSpeech` -/

/-- Modelled from the spec: the seconds of `GenTime(frames, fps)`, whose class
`GenTime` is not among the sources. Section 4.1 gives it as
"`framesToSeconds(frame, fps) → sec`: `frame / fps`". -/
def framesToSeconds (fps : ℚ) (frame : Int) : ℚ :=
  (frame : ℚ) / fps

/-- The members of `TextBasedEdit` that recognition reads or writes. -/
structure TextBasedEdit where
  visualEditor : Editor
  binId : String
  lastPosition : Int
  clipDuration : ℚ
deriving DecidableEq, Repr

/-- The method `VideoTextEdit::cleanup` (lines 69-75). `clear()` leaves an empty
document, which has one empty block, with the cursor at its start. -/
def cleanup (ed : Editor) : Editor :=
  { ed with speechZones := [], cutZones := [], hoveredBlock := -1, doc := [],
            textCursor := { anchor := 0, position := 0 } }

/-- The project item that `startRecognition` finds for the active clip: a clip with
its zone and its duration in seconds, a sub-clip with its zone, or another kind of
item. -/
inductive ProjectItem where
  | clipItem (zone : QPoint) (duration : ℚ)
  | subClipItem (zone : QPoint)
  | otherItem
deriving DecidableEq, Repr

/-- The state that `TextBasedEdit::startRecognition` sets up for a run (lines 728
and 764-797), for a start that passes the checks on the installation.
`speechZone` is the check box "zone only". -/
def startRecognition (fps : ℚ) (speechZone : Bool) (clip : ProjectItem) (w : TextBasedEdit) :
    TextBasedEdit :=
  let ed := { cleanup w.visualEditor with clipOffset := 0 }
  match clip with
  | ProjectItem.clipItem zone duration =>
    if speechZone then
      -- Analyse clip zone only
      { w with visualEditor := { ed with clipOffset := framesToSeconds fps zone.x },
               lastPosition := zone.x,
               clipDuration := framesToSeconds fps (zone.y - zone.x) }
    else
      { w with visualEditor := ed, lastPosition := 0, clipDuration := duration }
  | ProjectItem.subClipItem zone =>
    { w with visualEditor := { ed with clipOffset := framesToSeconds fps zone.x },
             lastPosition := zone.x,
             clipDuration := framesToSeconds fps (zone.y - zone.x) }
  | ProjectItem.otherItem =>
    { w with visualEditor := ed, lastPosition := 0 }

/-- An element of the array `result` as `slotProcessSpeech` reads it: a value that
is no object, or an object with the string of `word` (empty when missing) and the
numbers of `start` and `end` (`none` when the key is missing). -/
inductive JsonValue where
  | notObject
  | object (word : String) (start : Option ℚ) (stop : Option ℚ)
deriving DecidableEq, Repr

/-- The reading `v.toObject().value("word").toString()`. -/
def JsonValue.word : JsonValue → String
  | JsonValue.object w _ _ => w
  | JsonValue.notObject => ""

/-- The reading `v.toObject().value("start").toDouble()`: 0 when there is none. -/
def JsonValue.startSec : JsonValue → ℚ
  | JsonValue.object _ (some s) _ => s
  | _ => 0

/-- The reading `v.toObject().value("end").toDouble()`: 0 when there is none. -/
def JsonValue.endSec : JsonValue → ℚ
  | JsonValue.object _ _ (some e) => e
  | _ => 0

/-- One chunk of standard output after `QJsonDocument::fromJson`: no object (a
parse error, an array), the empty object, an object whose `result` is an array, or
another non-empty object. -/
inductive SpeechData where
  | notObject
  | emptyObject
  | withResult (result : List JsonValue)
  | withoutResult
deriving DecidableEq, Repr

/-- The separator of blocks as a character of the document. -/
def separatorCell : Cell := { ch := paragraphSeparator, href := none }

/-- The call `moveCursor(QTextCursor::End)`. -/
def Editor.moveCursorEnd (ed : Editor) : Editor :=
  { ed with textCursor := { anchor := ed.doc.length, position := ed.doc.length } }

/-- Insertion at the text cursor of the editor (`insertHtml`, `insertBlock`): the
selected text, if any, is replaced and the cursor ends behind the insertion. An
empty fragment changes nothing. -/
def Editor.insertCells (ed : Editor) (cells : List Cell) : Editor :=
  if cells.isEmpty then ed
  else
    { ed with
      doc := ed.doc.take ed.textCursor.selectionStart ++ cells ++
        ed.doc.drop ed.textCursor.selectionEnd,
      textCursor := { anchor := ed.textCursor.selectionStart + cells.length,
                      position := ed.textCursor.selectionStart + cells.length } }

/-- The call `textCursor().insertBlock(...)`: a block separator at the cursor. -/
def Editor.insertBlock (ed : Editor) : Editor :=
  ed.insertCells [separatorCell]

/-- The document text of `htmlLine.simplified()` (line 865): for every element of
`result` the word inside an anchor with the href `<binId>#<start>:<end>`, and one
space between two anchors. The formatting of the numbers by `QString::arg` is not
followed: the href keeps the numbers as they are. -/
def sentenceCells (binId : String) (result : List JsonValue) : List Cell :=
  List.intercalate [spaceCell]
    (result.map (fun v => wordCells v.word ⟨binId, v.startSec, v.endSec⟩))

/-- The document text of the anchor `<a href="#<s>:<e>">No speech</a>` of a silence. -/
def silenceCells (s e : ℚ) : List Cell :=
  wordCells "No speech" ⟨"", s, e⟩

/-- The silence that `slotProcessSpeech` inserts before a sentence (lines 874-880),
from `m_lastPosition` to the frame before `startFrame`. -/
def insertSilence (fps : ℚ) (startFrame : Int) (w : TextBasedEdit) : TextBasedEdit :=
  let silenceStart := framesToSeconds fps w.lastPosition
  let silenceEnd := framesToSeconds fps (startFrame - 1)
  let ed := ((w.visualEditor.moveCursorEnd).insertCells
    (silenceCells silenceStart silenceEnd)).insertBlock
  { w with visualEditor := { ed with speechZones := ed.speechZones ++ [(silenceStart, silenceEnd)] } }

/-- The part of `slotProcessSpeech` that reads the first and the last word (lines
867-891). The result is the new state and `sentenceZone`, which starts as (0, 0). -/
def readSentence (fps : ℚ) (result : List JsonValue) (w : TextBasedEdit) :
    TextBasedEdit × (ℚ × ℚ) :=
  match result.head? with
  | some (JsonValue.object _ (some s) _) =>
    -- Get start time for first word
    let ms := s + w.visualEditor.clipOffset
    let w1 :=
      if secondsToFrames fps ms > w.lastPosition + 1 then
        -- Insert space
        insertSilence fps (secondsToFrames fps ms) w
      else w
    match result.getLast? with
    | some (JsonValue.object _ _ (some e)) =>
      ({ w1 with lastPosition := secondsToFrames fps (e + w.visualEditor.clipOffset) },
        (ms, e + w.visualEditor.clipOffset))
    | _ => (w1, (ms, 0))
  | _ => (w, (0, 0))

/-- The method `TextBasedEdit::slotProcessSpeech` (lines 847-914) on one parsed
chunk. The progress bar and the repaint are left out. -/
def slotProcessSpeech (fps : ℚ) (data : SpeechData) (w : TextBasedEdit) : TextBasedEdit :=
  match data with
  | SpeechData.notObject => w
  | SpeechData.emptyObject => w
  | SpeechData.withResult result =>
    let r := readSentence fps result w
    if !result.isEmpty then
      -- `htmlLine` is not empty
      let ed1 := r.1.visualEditor.insertCells (sentenceCells w.binId result)
      let ed2 :=
        if r.2.2 < ed1.clipOffset + r.1.clipDuration then ed1.insertBlock else ed1
      { r.1 with visualEditor := { ed2 with speechZones := ed2.speechZones ++ [r.2] } }
    else r.1
  | SpeechData.withoutResult =>
    -- Last empty object - no speech detected
    let silenceStart := framesToSeconds fps (w.lastPosition + 1)
    let ed := (w.visualEditor.moveCursorEnd).insertCells (silenceCells silenceStart w.clipDuration)
    { w with visualEditor :=
        { ed with speechZones := ed.speechZones ++ [(silenceStart, w.clipDuration)] } }

/-- The blocks of a document: its characters split at the separators. -/
def blocksOf : List Cell → List (List Cell)
  | [] => [[]]
  | c :: rest =>
    if c.isSeparator then [] :: blocksOf rest
    else
      match blocksOf rest with
      | [] => [[c]]
      | b :: bs => (c :: b) :: bs

/-- The plain text of every block of a document. -/
def blockTexts (doc : List Cell) : List String :=
  (blocksOf doc).map (fun b => String.mk (b.map Cell.ch))

/-- A `TextBasedEdit` before its first run: nothing shown, nothing selected. -/
def TextBasedEdit.initial (binId : String) : TextBasedEdit :=
  { visualEditor := editorWith [] 0 0 [], binId := binId, lastPosition := 0, clipDuration := 0 }

/-- A word of the recognizer with its `word`, `start` and `end`. -/
def token (word : String) (start stop : ℚ) : JsonValue :=
  JsonValue.object word (some start) (some stop)

/-- The sentence of scenario 1: hello 0.2-0.6, world 0.7-1.1. -/
def helloWorld : List JsonValue :=
  [token "hello" (1 / 5) (3 / 5), token "world" (7 / 10) (11 / 10)]

/-- A fresh run at 25 frames per second on the whole of a clip of ten seconds. -/
def freshRun : TextBasedEdit :=
  startRecognition 25 false (ProjectItem.clipItem ⟨0, 250⟩ 10) (TextBasedEdit.initial "2")

/-- The zones of scenario 5 of the specification, in seconds. -/
def scenarioZones : List (ℚ × ℚ) := [(0, 1), (1, 2), (2, 3), (4, 5), (5, 6)]

/-- A transcript of five blocks of one word each, with the zones of scenario 5. -/
def scenarioDoc : List Cell :=
  wordCells "zero" ⟨"2", 0, 1⟩ ++ [separatorCell] ++ wordCells "one" ⟨"2", 1, 2⟩ ++
  [separatorCell] ++ wordCells "two" ⟨"2", 2, 3⟩ ++ [separatorCell] ++
  wordCells "three" ⟨"2", 4, 5⟩ ++ [separatorCell] ++ wordCells "four" ⟨"2", 5, 6⟩

/-- The editor that shows `scenarioDoc` after recognition: nothing selected, no
block hovered or clicked yet. -/
def scenarioEditor : Editor := editorWith scenarioDoc 0 0 scenarioZones

/-- The effect of `checkHoverBlock` when the mouse is over block `i` of the gutter:
`m_hoveredBlock` becomes `i`. -/
def hoverBlock (i : Int) (ed : Editor) : Editor :=
  { ed with hoveredBlock := i }

/-- A plain click: neither Ctrl nor Shift. -/
def plainClick : Modifiers := { control := false, shift := false }

/-- A click with Ctrl held. -/
def controlClick : Modifiers := { control := true, shift := false }

/-- A click with Shift held and Ctrl not. -/
def shiftClick : Modifiers := { control := false, shift := true }

/-! ## Events on the block selection -/

/-- The events that act on the block selection: the mouse moves over block `i` of
the gutter, a block is clicked, the mouse is released in the text, the zones are
rebuilt, the editor is cleaned up. -/
inductive SelectionEvent where
  | hover (i : Int)
  | click (modifiers : Modifiers)
  | release
  | rebuild
  | clean
deriving DecidableEq, Repr

/-- The effect of one event on the editor. -/
def applyEvent (ed : Editor) : SelectionEvent → Editor
  | SelectionEvent.hover i => hoverBlock i ed
  | SelectionEvent.click modifiers => blockClicked modifiers ed
  | SelectionEvent.release => mouseReleaseEvent ed
  | SelectionEvent.rebuild => rebuildZones ed
  | SelectionEvent.clean => cleanup ed

/-! ## Hover: `checkHoverBlock` -/

/-- A `QRect` with integer coordinates: left `x`, top `y`, `width`, `height`. -/
structure QRect where
  x : Int
  y : Int
  width : Int
  height : Int
deriving DecidableEq, Repr

/-- The method `QRect::bottom`, which Qt defines as `top() + height() - 1`. -/
def QRect.bottom (r : QRect) : Int := r.y + r.height - 1

/-- The loop of `checkHoverBlock` (lines 318-333) from block `i` on. The list holds
for every block the rectangle `r2`: its bounding rectangle, translated by the
scroll offset. The result is `m_hoveredBlock`. -/
def hoverWalk (yPos : Int) : Int → List QRect → Int
  | _, [] => -1
  | i, r2 :: rest =>
    if yPos < r2.x then -1
    else if yPos > r2.x ∧ yPos < r2.bottom then i
    else hoverWalk yPos (i + 1) rest

/-- The method `VideoTextEdit::checkHoverBlock` (lines 313-336); the shape of the
mouse pointer and the repaint are left out. -/
def checkHoverBlock (rects : List QRect) (yPos : Int) (ed : Editor) : Editor :=
  { ed with hoveredBlock := hoverWalk yPos 0 rects }

/-! ## End of recognition: `slotProcessSpeechStatus` -/

/-- The exit status of the recognizer process, `QProcess::ExitStatus`. -/
inductive ExitStatus where
  | normalExit
  | crashExit
deriving DecidableEq, Repr

/-- The severities of `KMessageWidget`. -/
inductive MessageType where
  | positive
  | information
  | warning
  | error
deriving DecidableEq, Repr

/-- What `showMessage` displays, and whether the action "Show log" was added. -/
structure StatusMessage where
  text : String
  severity : MessageType
  showLog : Bool
deriving DecidableEq, Repr

/-- The method `TextBasedEdit::slotProcessSpeechStatus` (lines 820-840). The exit
code is its first parameter, which the source leaves unnamed and never reads;
`errorString` is `m_errorString`. The text cursor goes back to the start. -/
def slotProcessSpeechStatus (_exitCode : Int) (status : ExitStatus) (errorString : String)
    (w : TextBasedEdit) : TextBasedEdit × StatusMessage :=
  let message : StatusMessage :=
    if status = ExitStatus.crashExit then
      { text := "Speech recognition aborted.", severity := MessageType.warning,
        showLog := !errorString.isEmpty }
    else if w.visualEditor.doc.isEmpty then
      { text := "No speech detected.", severity := MessageType.information,
        showLog := !errorString.isEmpty }
    else
      { text := "Speech recognition finished.", severity := MessageType.positive,
        showLog := false }
  ({ w with visualEditor := { w.visualEditor with textCursor := { anchor := 0, position := 0 } } },
    message)

/-! ## Hrefs as text

The hrefs `"<clip>#<start>:<end>"` as strings of characters, with the calls of
`QString` that write and read them: `arg` for the two numbers, `section` and
`toDouble` for the fields. `QString` belongs to the Qt library; its calls are
embedded from their documented behaviour. -/

/-- The fields of a text between the occurrences of `sep`; empty fields count. -/
def splitFields (sep : Char) : List Char → List (List Char)
  | [] => [[]]
  | c :: rest =>
    if c = sep then [] :: splitFields sep rest
    else
      match splitFields sep rest with
      | [] => [[c]]
      | f :: fs => (c :: f) :: fs

/-- The call `section(sep, start)`: the fields from `start` to the last one, with
their separators. -/
def sectionFrom (sep : Char) (start : Nat) (s : List Char) : List Char :=
  List.intercalate [sep] ((splitFields sep s).drop start)

/-- The call `section(sep, k, k)`: field `k`, empty when there is none. -/
def sectionAt (sep : Char) (k : Nat) (s : List Char) : List Char :=
  ((splitFields sep s)[k]?).getD []

/-- The text `anchor.section('#', 1).section(':', 0, 0)`. -/
def startField (href : List Char) : List Char :=
  sectionAt ':' 0 (sectionFrom '#' 1 href)

/-- The text `anchor.section('#', 1).section(':', 1, 1)`. -/
def endField (href : List Char) : List Char :=
  sectionAt ':' 1 (sectionFrom '#' 1 href)

/-- The test `QChar::isSpace`: the space, the characters U+0009 to U+000D, U+0085,
U+00A0 and the separators of Unicode. -/
def isSpace (c : Char) : Bool :=
  c.toNat == 32 || (9 ≤ c.toNat && c.toNat ≤ 13) || c.toNat == 0x85 || c.toNat == 0xA0 ||
  c.toNat == 0x1680 || (0x2000 ≤ c.toNat && c.toNat ≤ 0x200A) || c.toNat == 0x2028 ||
  c.toNat == 0x2029 || c.toNat == 0x202F || c.toNat == 0x205F || c.toNat == 0x3000

/-- The text without the white space at its two ends, which `QString::toDouble`
skips before it reads the number. -/
def trimmed (s : List Char) : List Char :=
  ((s.dropWhile isSpace).reverse.dropWhile isSpace).reverse

/-- Whether a character is one of the digits 0 to 9. -/
def isDigit (c : Char) : Bool := 48 ≤ c.toNat && c.toNat ≤ 57

/-- The value of a text of decimal digits, the first digit the most significant. -/
def digitsValue (ds : List Char) : Nat :=
  ds.foldl (fun v c => 10 * v + (c.toNat - 48)) 0

/-- The number `v` times ten to the power `x`. -/
def scale10 (v : ℚ) (x : Int) : ℚ :=
  if 0 ≤ x then v * ((10 ^ x.toNat : Nat) : ℚ) else v / ((10 ^ (-x).toNat : Nat) : ℚ)

/-- The exponent of a numeral, the text behind its `e`: digits with an optional
sign; `none` for every other text. -/
def exponentValue (t : List Char) : Option Int :=
  match t with
  | '-' :: ds => if !ds.isEmpty && ds.all isDigit then some (-(digitsValue ds : Int)) else none
  | '+' :: ds => if !ds.isEmpty && ds.all isDigit then some (digitsValue ds : Int) else none
  | ds => if !ds.isEmpty && ds.all isDigit then some (digitsValue ds : Int) else none

/-- The value of an unsigned numeral as `QString::toDouble` reads it in the C locale:
digits with an optional point (`12`, `12.`, `12.5`, `.5`), then an optional exponent
(`e` or `E`, an optional sign, digits); `none` for every other text. -/
def unsignedValue (s : List Char) : Option ℚ :=
  let whole := s.takeWhile isDigit
  let r1 := s.dropWhile isDigit
  let fraction := match r1 with
    | '.' :: t => t.takeWhile isDigit
    | _ => []
  let r2 := match r1 with
    | '.' :: t => t.dropWhile isDigit
    | _ => r1
  if whole.isEmpty && fraction.isEmpty then none
  else
    let mantissa : ℚ := (digitsValue (whole ++ fraction) : ℚ) / ((10 ^ fraction.length : Nat) : ℚ)
    match r2 with
    | [] => some mantissa
    | c :: t =>
      if c = 'e' ∨ c = 'E' then (exponentValue t).map (fun x => scale10 mantissa x)
      else none

/-- The value of a numeral with an optional sign; `none` for every other text. -/
def signedValue (s : List Char) : Option ℚ :=
  match s with
  | '-' :: rest => (unsignedValue rest).map (fun v => -v)
  | '+' :: rest => unsignedValue rest
  | _ => unsignedValue s

/-- The call `QString::toDouble`: the value of the numeral between the white space at
the two ends, and 0 for a text that holds no numeral. Seconds are exact rationals:
the range and the rounding of a double are not followed, and the texts `nan` and
`inf`, which Qt reads as values that are no numbers of ℚ, get 0 here. -/
def toDouble (s : List Char) : ℚ := (signedValue (trimmed s)).getD 0

/-- Whether `QString::toDouble` reads the text as a number: a numeral, or one of the
texts `nan`, `inf`, `+inf`, `-inf` in small or capital letters. -/
def isNumber (s : List Char) : Bool :=
  (signedValue (trimmed s)).isSome ||
    ["nan".toList, "inf".toList, "+inf".toList, "-inf".toList].contains
      ((trimmed s).map Char.toLower)

/-- The character of the digit `d % 10`. -/
def digitChar (d : Nat) : Char :=
  match d % 10 with
  | 0 => '0' | 1 => '1' | 2 => '2' | 3 => '3' | 4 => '4'
  | 5 => '5' | 6 => '6' | 7 => '7' | 8 => '8' | _ => '9'

/-- The number of decimal digits of `n`, counted in at most `fuel` divisions. -/
def digitCountAux : Nat → Nat → Nat
  | 0, _ => 1
  | fuel + 1, n => if n < 10 then 1 else digitCountAux fuel (n / 10) + 1

/-- The number of decimal digits of `n`; 1 for 0. -/
def digitCount (n : Nat) : Nat := digitCountAux n n

/-- The decimal digits of `n` in front of `acc`, in at most `fuel` divisions. -/
def natDigitsAux : Nat → Nat → List Char → List Char
  | 0, _, acc => acc
  | fuel + 1, n, acc =>
    if n < 10 then digitChar n :: acc else natDigitsAux fuel (n / 10) (digitChar n :: acc)

/-- The decimal digits of `n`. -/
def natDigits (n : Nat) : List Char := natDigitsAux (n + 1) n []

/-- The decimal exponent of a positive number `a`: the `x` with
10 ^ x ≤ a < 10 ^ (x + 1). -/
def decimalExponent (a : ℚ) : Int :=
  (digitCount ⌊scale10 a (digitCount a.den)⌋₊ : Int) - 1 - (digitCount a.den : Int)

/-- The six significant digits of a positive number, as the number `m` between
100000 and 999999 that they spell, and its decimal exponent `x`: `a` rounded is
`m` times 10 ^ (x - 5). A tie goes up. -/
def sixDigits (a : ℚ) : Nat × Int :=
  let x := decimalExponent a
  let m := (round (scale10 a (5 - x))).toNat
  if m = 1000000 then (100000, x + 1) else (m, x)

/-- The six digits of a number below 1000000, with its leading zeros. -/
def mantissaDigits (m : Nat) : List Char :=
  [digitChar (m / 100000), digitChar (m / 10000), digitChar (m / 1000), digitChar (m / 100),
    digitChar (m / 10), digitChar m]

/-- The text without the zeros at its end. -/
def stripZeros (l : List Char) : List Char :=
  (l.reverse.dropWhile (fun c => c == '0')).reverse

/-- The digits before the point and, when there are any, the point and the digits
behind it. -/
def withPoint (whole fraction : List Char) : List Char :=
  if fraction.isEmpty then whole else whole ++ '.' :: fraction

/-- The exponent as format `g` writes it: `e`, the sign, at least two digits. -/
def exponentText (x : Int) : List Char :=
  'e' :: (if x < 0 then '-' else '+') ::
    (if x.natAbs < 10 then ['0', digitChar x.natAbs] else natDigits x.natAbs)

/-- Format `g` with precision 6 on a positive number: six significant digits without
the zeros at the end, in decimal form when the decimal exponent is between -4 and 5
and in exponent form otherwise. -/
def formatPositive (a : ℚ) : List Char :=
  let m := (sixDigits a).1
  let x := (sixDigits a).2
  let ds := mantissaDigits m
  if -4 ≤ x ∧ x < 6 then
    if 0 ≤ x then withPoint (ds.take (x.toNat + 1)) (stripZeros (ds.drop (x.toNat + 1)))
    else '0' :: '.' :: (List.replicate ((-x).toNat - 1) '0' ++ stripZeros ds)
  else withPoint (ds.take 1) (stripZeros (ds.drop 1)) ++ exponentText x

/-- The text that `QString::arg(double)` writes for a number with its default
arguments, format `g` and precision 6: 0.2 gives "0.2", 1234.567 gives "1234.57",
0.00005 gives "5e-05" and 1000000 gives "1e+06". -/
def formatDouble (x : ℚ) : List Char :=
  if x = 0 then ['0']
  else if x < 0 then '-' :: formatPositive (-x)
  else formatPositive x

/-- The number that the text of `formatDouble` spells: `x` rounded to six significant
decimal digits. -/
def sixDigitValue (x : ℚ) : ℚ :=
  if x = 0 then 0
  else if x < 0 then -(((sixDigits (-x)).1 : ℚ) * (10 : ℚ) ^ ((sixDigits (-x)).2 - 5))
  else ((sixDigits x).1 : ℚ) * (10 : ℚ) ^ ((sixDigits x).2 - 5)

/-- The characters that `formatDouble` writes. -/
def numberChar (c : Char) : Bool :=
  isDigit c || c == '.' || c == 'e' || c == '+' || c == '-'

/-- The href that `slotProcessSpeech` builds for a word (line 865): the clip id, '#',
the start and, after ':', the end, both written by `QString::arg`. The clip id is
taken to hold no place marker of `QString::arg` and no markup of HTML; the ids of
the bin are numerals. -/
def encodeHref (binId : List Char) (start stop : ℚ) : List Char :=
  binId ++ '#' :: (formatDouble start ++ ':' :: formatDouble stop)

/-- The decoding chain of `rebuildZones`, `getInsertZones` and `deleteItem` on the
text of an href: the pair of the two numbers read. -/
def decodeHref (href : List Char) : ℚ × ℚ :=
  (toDouble (startField href), toDouble (endField href))

/-- The anchor of a word whose href is the text `href`: no anchor for the empty
text, else the href with its decoded fields. -/
def anchorOf (href : String) : Option Href :=
  if href.isEmpty then none
  else some { clip := String.mk (sectionAt '#' 0 href.toList),
              startSec := (decodeHref href.toList).1,
              endSec := (decodeHref href.toList).2 }

/-- The cells of a word that lies in an anchor with the href text `href`. -/
def anchorCells (word href : String) : List Cell :=
  word.toList.map (fun c => { ch := c, href := anchorOf href })

/-- The walk that `getInsertZones` makes in both branches of its text path (lines
209-229 and 236-256), from the cursor `c0` on which it calls the first `select`: the
anchor of the first word at or after `start` and of the last word at or before `e`. -/
def probeAnchors (doc : List Cell) (start e : Int) (c0 : TextCursor) :
    Option Href × Option Href :=
  let c1 := TextCursor.selectWordUnderCursor doc c0
  let r1 := seekForward doc e (e - start).toNat start c1
  let c2 := TextCursor.setPosition doc r1.2 r1.2.selectionMiddle
  let anchorStart := anchorAtCursor doc c2
  let c3 := TextCursor.selectWordUnderCursor doc (TextCursor.setPosition doc c2 e)
  let r2 := seekBackward doc r1.1 (e - r1.1).toNat e c3
  let c4 := TextCursor.setPosition doc r2.2 r2.2.selectionMiddle
  (anchorStart, anchorAtCursor doc c4)

/-- The text path of `getInsertZones` (lines 201-260), taken when no block is
selected: the pair (`startMs`, `endMs`) decoded from the two anchors, or `none` when
an anchor is empty. -/
def textZone (ed : Editor) : Option (ℚ × ℚ) :=
  let cursor := ed.textCursor
  let anchors :=
    if !cursor.selectionIsEmpty then
      let start : Int := cursor.selectionStart
      let e : Int := (cursor.selectionEnd : Int) - 1
      probeAnchors ed.doc start e (TextCursor.setPosition ed.doc cursor start)
    else
      -- Return full text
      probeAnchors ed.doc 0 ((ed.doc.length : Int) - 1) { anchor := 0, position := 0 }
  if anchors.1.isSome ∧ anchors.2.isSome then
    some (hrefStartSec anchors.1 + ed.clipOffset, hrefEndSec anchors.2 + ed.clipOffset)
  else none

/-- The method `VideoTextEdit::getInsertZones` on the state of the editor: the text
path is `textZone`, the members are those of `ed`. -/
def insertZonesOf (frames : ℚ → Int) (ed : Editor) : Option (List QPoint) :=
  getInsertZones frames (textZone ed) ed.speechZones ed.cutZones ed.selectedBlocks

/-- The cells of the characters `w` under the anchor `a`; `a = none` is a text
outside every anchor. -/
def wordUnder (w : List Char) (a : Option Href) : List Cell :=
  w.map (fun c => { ch := c, href := a })

/-- Whether a character is a character of a word for the text cursor: no separator of
blocks, no white space and no separator of words. -/
def wordChar (ch : Char) : Bool :=
  !(Cell.isSeparator ⟨ch, none⟩) && !(Cell.whiteSpace ⟨ch, none⟩) &&
    !(Cell.atWordSeparator ⟨ch, none⟩)

end Kdenlive

/-! ## Helper lemmas -/

namespace Kdenlive

theorem removeAll_nil (t : QPoint) : removeAll [] t = [] := rfl

theorem removeAll_cons (p t : QPoint) (l : List QPoint) :
    removeAll (p :: l) t = if p = t then removeAll l t else p :: removeAll l t := by
  by_cases h : p = t <;> simp [removeAll, List.filter_cons, h]

theorem zoneStep_nil (acc : List QPoint × List QPoint) (zone : QPoint) :
    zoneStep [] acc zone = (acc.1 ++ [zone], acc.2) := by
  simp [zoneStep]

theorem foldl_zoneStep_nil (src : List QPoint) (acc : List QPoint × List QPoint) :
    src.foldl (zoneStep []) acc = (acc.1 ++ src, acc.2) := by
  induction src generalizing acc with
  | nil => simp
  | cons z rest ih => simp [ih, zoneStep_nil]

theorem processedZones_of_no_cut (src : List QPoint) : processedZones [] src = src := by
  simp [processedZones, foldl_zoneStep_nil]

/-! ## Cut algebra: `processedZones` -/

/-- C1 (fails on the code): containment of the output in the source interval. With
the source interval (10, 20) and the single well-formed cut (0, 5), which lies
entirely before the source, `processedZones` returns [(5, 20)]: the returned
interval starts at frame 5, before the source start 10. -/
theorem processedZones_cut_before_source_escapes :
    processedZones [⟨0, 5⟩] [⟨10, 20⟩] = [⟨5, 20⟩] ∧
    ¬ (∀ o ∈ processedZones [⟨0, 5⟩] [⟨10, 20⟩], (10 : Int) ≤ o.x ∧ o.y ≤ 20) := by
  decide

/-- C2 (fails on the code): disjointness of the output from the cuts. With the
source interval (10, 20) and the single cut (0, 30) enclosing it, `processedZones`
returns the source unchanged, so frame 15 lies strictly inside both the output
interval (10, 20) and the cut (0, 30). With the source (0, 100) and the cuts
(40, 60), (10, 20) in this order the output holds (20, 100), and frame 50 lies
strictly inside it and inside the cut (40, 60). -/
theorem processedZones_output_overlaps_cut :
    (processedZones [⟨0, 30⟩] [⟨10, 20⟩] = [⟨10, 20⟩] ∧
      ∃ o ∈ processedZones [⟨0, 30⟩] [⟨10, 20⟩], ∃ c ∈ [(⟨0, 30⟩ : QPoint)],
        o.x < 15 ∧ 15 < o.y ∧ c.x < 15 ∧ 15 < c.y) ∧
    (processedZones [⟨40, 60⟩, ⟨10, 20⟩] [⟨0, 100⟩] = [⟨0, 10⟩, ⟨20, 40⟩, ⟨20, 100⟩] ∧
      ∃ o ∈ processedZones [⟨40, 60⟩, ⟨10, 20⟩] [⟨0, 100⟩],
        ∃ c ∈ [(⟨40, 60⟩ : QPoint), ⟨10, 20⟩], o.x < 50 ∧ 50 < o.y ∧ c.x < 50 ∧ 50 < c.y) := by
  decide

/-- C3 (fails on the code): coverage of the source by outputs and cuts. With the
source interval (0, 100) and the cuts (20, 40), (100, 120), `processedZones`
returns only [(0, 20)]: frame 50 of the source lies in no returned interval and in
no cut. -/
theorem processedZones_drops_uncut_frames :
    processedZones [⟨20, 40⟩, ⟨100, 120⟩] [⟨0, 100⟩] = [⟨0, 20⟩] ∧
    (0 : Int) ≤ 50 ∧ (50 : Int) ≤ 100 ∧
    (∀ o ∈ processedZones [⟨20, 40⟩, ⟨100, 120⟩] [⟨0, 100⟩], ¬ (o.x ≤ 50 ∧ 50 ≤ o.y)) ∧
    (∀ c ∈ [(⟨20, 40⟩ : QPoint), ⟨100, 120⟩], ¬ (c.x ≤ 50 ∧ 50 ≤ c.y)) := by
  decide

/-- C4: for a source interval (zs, ze) and two cuts (a, b), (c, d) stored in this
order with zs < a < b < c < d < ze, `processedZones` returns exactly
[(zs, a), (b, c), (d, ze)], in that order. -/
theorem processedZones_two_cuts_inside (zs a b c d ze : Int)
    (h1 : zs < a) (h2 : a < b) (h3 : b < c) (h4 : c < d) (h5 : d < ze) :
    processedZones [⟨a, b⟩, ⟨c, d⟩] [⟨zs, ze⟩] = [⟨zs, a⟩, ⟨b, c⟩, ⟨d, ze⟩] := by
  have e1 : ¬ (ze < a) := by omega
  have e2 : ¬ (ze < b) := by omega
  have e4 : zs < c := by omega
  have e7 : ¬ (ze < c) := by omega
  have e8 : ¬ (ze < d) := by omega
  have e9 : a < c := by omega
  have n1 : zs ≠ a := by omega
  have n2 : b ≠ a := by omega
  have n3 : d ≠ a := by omega
  have n4 : zs ≠ b := by omega
  have n5 : c ≠ ze := by omega
  have n6 : d ≠ b := by omega
  simp [processedZones, zoneStep, cutStep, splitSubCuts, removeAll_cons, removeAll_nil,
    QPoint.mk.injEq, *]

/-- C4 at the input of scenario 3: source [(0,100)] with cuts [(20,40),(60,80)]
gives [(0,20),(40,60),(80,100)]. -/
theorem processedZones_two_cuts_inside_witness :
    processedZones [⟨20, 40⟩, ⟨60, 80⟩] [⟨0, 100⟩] = [⟨0, 20⟩, ⟨40, 60⟩, ⟨80, 100⟩] :=
  processedZones_two_cuts_inside 0 20 40 60 80 100
    (by decide) (by decide) (by decide) (by decide) (by decide)

/-- C5: for two source intervals (s1, e1), (s2, e2) and a single cut (cs, ce) that
starts inside the first and ends inside the second (s1 < cs ≤ e1 < ce, cs ≤ s2,
ce < e2), `processedZones` returns exactly [(s1, cs), (ce, e2)]. -/
theorem processedZones_cut_across_two_sources (s1 e1 s2 e2 cs ce : Int)
    (h1 : s1 < cs) (h2 : cs ≤ e1) (h3 : e1 < ce) (h4 : cs ≤ s2) (h5 : ce < e2) :
    processedZones [⟨cs, ce⟩] [⟨s1, e1⟩, ⟨s2, e2⟩] = [⟨s1, cs⟩, ⟨ce, e2⟩] := by
  have g1 : ¬ (e1 < cs) := by omega
  have g2 : ¬ (s2 < cs) := by omega
  have n1 : s1 ≠ cs := by omega
  have n2 : e2 ≠ ce := by omega
  simp [processedZones, zoneStep, cutStep, splitSubCuts, removeAll_cons, removeAll_nil,
    QPoint.mk.injEq, *]

/-- C5 at the input of scenario 4: sources [(0,50),(60,100)] with cut (40,70) give
[(0,40),(70,100)]. -/
theorem processedZones_cut_across_two_sources_witness :
    processedZones [⟨40, 70⟩] [⟨0, 50⟩, ⟨60, 100⟩] = [⟨0, 40⟩, ⟨70, 100⟩] :=
  processedZones_cut_across_two_sources 0 50 60 100 40 70
    (by decide) (by decide) (by decide) (by decide) (by decide)

/-- C6 (fails on the code): independence of the order of the cuts. The cut lists
[(40,60),(10,20)] and [(10,20),(40,60)] are permutations of each other, the second
one sorted by start frame, and `processedZones` returns different lists for the
source [(0,100)]: [(0,10),(20,40),(20,100)] and [(0,10),(20,40),(60,100)]. -/
theorem processedZones_depends_on_cut_order :
    List.Perm [(⟨40, 60⟩ : QPoint), ⟨10, 20⟩] [⟨10, 20⟩, ⟨40, 60⟩] ∧
    processedZones [⟨40, 60⟩, ⟨10, 20⟩] [⟨0, 100⟩] = [⟨0, 10⟩, ⟨20, 40⟩, ⟨20, 100⟩] ∧
    processedZones [⟨10, 20⟩, ⟨40, 60⟩] [⟨0, 100⟩] = [⟨0, 10⟩, ⟨20, 40⟩, ⟨60, 100⟩] ∧
    processedZones [⟨40, 60⟩, ⟨10, 20⟩] [⟨0, 100⟩] ≠
      processedZones [⟨10, 20⟩, ⟨40, 60⟩] [⟨0, 100⟩] := by
  refine ⟨List.Perm.swap _ _ _, ?_, ?_, ?_⟩ <;> decide

/-- C7 (fails on the code): left-to-right order of the output. With the source
(0, 100) and the three disjoint cuts (20,40), (60,80), (85,90) stored in ascending
order, `processedZones` returns
[(0,20),(40,60),(40,85),(90,100),(80,85),(90,100)]: (40, 85) starts before the end
of (40, 60), (80, 85) starts before the end of (90, 100), and (90, 100) is
repeated. -/
theorem processedZones_output_not_left_to_right :
    processedZones [⟨20, 40⟩, ⟨60, 80⟩, ⟨85, 90⟩] [⟨0, 100⟩] =
      [⟨0, 20⟩, ⟨40, 60⟩, ⟨40, 85⟩, ⟨90, 100⟩, ⟨80, 85⟩, ⟨90, 100⟩] ∧
    ¬ List.Chain' (fun p q : QPoint => p.y ≤ q.x)
      (processedZones [⟨20, 40⟩, ⟨60, 80⟩, ⟨85, 90⟩] [⟨0, 100⟩]) := by
  have h : processedZones [⟨20, 40⟩, ⟨60, 80⟩, ⟨85, 90⟩] [⟨0, 100⟩] =
      [⟨0, 20⟩, ⟨40, 60⟩, ⟨40, 85⟩, ⟨90, 100⟩, ⟨80, 85⟩, ⟨90, 100⟩] := by decide
  refine ⟨h, ?_⟩
  rw [h]
  simp [List.Chain']

/-! ## Export zones: `getInsertZones` -/

/-- C8 (as stated, fails on the code): with the zones of scenario 5, the block
selection {1, 2, 4}, 25 frames per second and no cuts, `getInsertZones` does not
return [(25,75),(100,150)]. -/
theorem getInsertZones_scenario_not_100_150 :
    getInsertZones (secondsToFrames 25) none scenarioZones [] [1, 2, 4] ≠
      some [⟨25, 75⟩, ⟨100, 150⟩] := by
  decide!

/-- C8 (amended): with speechZones = [(0,1),(1,2),(2,3),(4,5),(5,6)] seconds, the
block selection {1, 2, 4}, 25 frames per second and no cuts, `getInsertZones`
returns [(25,75),(125,150)]: blocks 1 and 2 coalesce and block 4, whose zone is
(5, 6) seconds, stands alone. -/
theorem getInsertZones_scenario :
    getInsertZones (secondsToFrames 25) none scenarioZones [] [1, 2, 4] =
      some [⟨25, 75⟩, ⟨125, 150⟩] := by
  decide!

/-- C9 (fails on the code): coalescing of touching blocks. With the zones (0,1),
(1,2) seconds, both blocks selected, 25 frames per second and no cuts,
`getInsertZones` returns [(25, 50)], the interval of the last block alone, and not
(start of the first block, end of the last block) = (0, 50). -/
theorem getInsertZones_touching_blocks_keeps_last_only :
    getInsertZones (secondsToFrames 25) none [((0 : ℚ), (1 : ℚ)), (1, 2)] [] [0, 1] =
      some [⟨25, 50⟩] ∧
    getInsertZones (secondsToFrames 25) none [((0 : ℚ), (1 : ℚ)), (1, 2)] [] [0, 1] ≠
      some [⟨secondsToFrames 25 0, secondsToFrames 25 2⟩] := by
  decide!

/-! ## Deleting a selection: `deleteItem` -/

/-- C10 (fails on the code): the cut appended by `deleteItem`. In the block
"one two three four five" (word k lasts from second k-1 to second k, 25 frames per
second) a drag from inside "two" to inside "four" is snapped by `mouseReleaseEvent`
to the selection from position 4 to position 19, which covers the words 2 to 4 and
the space after "four". `deleteItem` then appends the single cut (25, 125), from
the start of word 2 to the end of word 5, and not (25, 100), the end of word 4.
The three words are removed (the block reads "one five") and `rebuildZones` sets
the zone of the block to (0, 5), from its remaining first and last words. -/
theorem deleteItem_cut_reaches_next_word :
    (mouseReleaseEvent (editorWith fiveWords 5 16 [(0, 5)])).textCursor = ⟨4, 19⟩ ∧
    (deleteItem (secondsToFrames 25)
      (mouseReleaseEvent (editorWith fiveWords 5 16 [(0, 5)]))).cutZones = [⟨25, 125⟩] ∧
    (deleteItem (secondsToFrames 25)
      (mouseReleaseEvent (editorWith fiveWords 5 16 [(0, 5)]))).cutZones ≠
        [⟨secondsToFrames 25 1, secondsToFrames 25 4⟩] ∧
    (deleteItem (secondsToFrames 25)
      (mouseReleaseEvent (editorWith fiveWords 5 16 [(0, 5)]))).doc =
        wordCells "one" ⟨"2", 0, 1⟩ ++ [spaceCell] ++ wordCells "five" ⟨"2", 4, 5⟩ ∧
    (deleteItem (secondsToFrames 25)
      (mouseReleaseEvent (editorWith fiveWords 5 16 [(0, 5)]))).speechZones = [(0, 5)] := by
  refine ⟨by decide, by decide!, by decide!, by decide!, by decide!⟩

/-- When the selection ends at the end of the block, `mouseReleaseEvent` adds no
space and the cut of `deleteItem` ends with the last selected word: for the words 3
to 5 of "one two three four five" the cut is (50, 125), the remaining text is
"one two " and the zone of the block becomes (0, 2). -/
theorem deleteItem_cut_at_block_end :
    (mouseReleaseEvent (editorWith fiveWords 9 20 [(0, 5)])).textCursor = ⟨8, 23⟩ ∧
    (deleteItem (secondsToFrames 25)
      (mouseReleaseEvent (editorWith fiveWords 9 20 [(0, 5)]))).cutZones =
        [⟨secondsToFrames 25 2, secondsToFrames 25 5⟩] ∧
    (deleteItem (secondsToFrames 25)
      (mouseReleaseEvent (editorWith fiveWords 9 20 [(0, 5)]))).doc =
        wordCells "one" ⟨"2", 0, 1⟩ ++ [spaceCell] ++ wordCells "two" ⟨"2", 1, 2⟩ ++ [spaceCell] ∧
    (deleteItem (secondsToFrames 25)
      (mouseReleaseEvent (editorWith fiveWords 9 20 [(0, 5)]))).speechZones = [(0, 2)] := by
  refine ⟨by decide, by decide!, by decide!, by decide!⟩

/-! ## Block selection: `blockClicked` -/

theorem mem_foldl_addIfMissing (l sel : List Int) (k : Int) :
    k ∈ l.foldl addIfMissing sel ↔ k ∈ sel ∨ k ∈ l := by
  induction l generalizing sel with
  | nil => simp
  | cons a rest ih =>
    simp only [List.foldl_cons, ih, List.mem_cons]
    unfold addIfMissing
    by_cases h : sel.contains a = true
    · have ha : a ∈ sel := by simpa using h
      simp only [h, if_true]
      constructor
      · rintro (h1 | h1)
        · exact Or.inl h1
        · exact Or.inr (Or.inr h1)
      · rintro (h1 | h1 | h1)
        · exact Or.inl h1
        · exact Or.inl (h1 ▸ ha)
        · exact Or.inr h1
    · simp only [h, if_false, List.mem_append, List.mem_singleton, Bool.false_eq_true]
      tauto

theorem mem_blockRange (lo hi k : Int) : k ∈ blockRange lo hi ↔ lo ≤ k ∧ k ≤ hi := by
  unfold blockRange
  constructor
  · intro h
    obtain ⟨n, hn, hk⟩ := (List.mem_map (f := fun n : Nat => lo + (n : Int))).mp h
    have hn1 : n < (hi + 1 - lo).toNat := List.mem_range.mp hn
    have hn2 : (n : Int) < hi + 1 - lo := Int.lt_toNat.mp hn1
    have hk2 : lo + (n : Int) = k := hk
    omega
  · rintro ⟨h1, h2⟩
    have e : ((k - lo).toNat : Int) = k - lo := Int.toNat_of_nonneg (by omega)
    have hlt : (k - lo).toNat < (hi + 1 - lo).toNat := by
      apply Int.lt_toNat.mpr
      omega
    exact (List.mem_map (f := fun n : Nat => lo + (n : Int))).mpr
      ⟨(k - lo).toNat, List.mem_range.mpr hlt, by show lo + ((k - lo).toNat : Int) = k; omega⟩

/-- C11: for every state and every hovered block i with 0 ≤ i < speechZones.count(),
a plain click (neither Ctrl nor Shift), whether or not i was selected, leaves the
block selection equal to exactly [i] and sets `lastClickedBlock` to i. -/
theorem blockClicked_plain_selects_only_hovered (ed : Editor) (m : Modifiers)
    (h0 : 0 ≤ ed.hoveredBlock) (h1 : ed.hoveredBlock < ed.speechZones.length)
    (hc : m.control = false) (hs : m.shift = false) :
    (blockClicked m ed).selectedBlocks = [ed.hoveredBlock] ∧
    (blockClicked m ed).lastClickedBlock = ed.hoveredBlock := by
  have h2 : -1 < ed.hoveredBlock := by omega
  unfold blockClicked
  simp only [gt_iff_lt, h2, h1, and_self, if_true, hc, hs, ge_iff_le, h0, Bool.false_eq_true,
    if_false]
  split <;> simp

/-- C11 at a concrete state: block 1 of the five-block transcript is clicked while
blocks 1 and 3 are selected. -/
theorem blockClicked_plain_selects_only_hovered_witness :
    (blockClicked plainClick
      { scenarioEditor with hoveredBlock := 1, selectedBlocks := [1, 3],
                            lastClickedBlock := 3 }).selectedBlocks = [1] ∧
    (blockClicked plainClick
      { scenarioEditor with hoveredBlock := 1, selectedBlocks := [1, 3],
                            lastClickedBlock := 3 }).lastClickedBlock = 1 :=
  blockClicked_plain_selects_only_hovered
    { scenarioEditor with hoveredBlock := 1, selectedBlocks := [1, 3], lastClickedBlock := 3 }
    plainClick (by decide) (by decide) rfl rfl

/-- C12 (as stated, fails on the code): after a plain click on block 1 and a
Ctrl-click on block 2 the selection is [1, 2] and `lastClickedBlock` is 2; a
Ctrl-click on the selected block 1 then removes it and sets `lastClickedBlock` to
1, so its value is not the one before the click. -/
theorem blockClicked_control_updates_lastClicked :
    (blockClicked controlClick (hoverBlock 2
      (blockClicked plainClick (hoverBlock 1 scenarioEditor)))).selectedBlocks = [1, 2] ∧
    (blockClicked controlClick (hoverBlock 2
      (blockClicked plainClick (hoverBlock 1 scenarioEditor)))).lastClickedBlock = 2 ∧
    (blockClicked controlClick (hoverBlock 1 (blockClicked controlClick (hoverBlock 2
      (blockClicked plainClick (hoverBlock 1 scenarioEditor)))))).selectedBlocks = [2] ∧
    (blockClicked controlClick (hoverBlock 1 (blockClicked controlClick (hoverBlock 2
      (blockClicked plainClick (hoverBlock 1 scenarioEditor)))))).lastClickedBlock ≠
    (blockClicked controlClick (hoverBlock 2
      (blockClicked plainClick (hoverBlock 1 scenarioEditor)))).lastClickedBlock := by
  decide!

/-- C12 (amended): for every state in which the valid hovered block i is selected, a
Ctrl-click on i removes i from the selection, keeps every other selected index in
its place, and sets `lastClickedBlock` to i. -/
theorem blockClicked_control_on_selected (ed : Editor) (m : Modifiers)
    (h0 : 0 ≤ ed.hoveredBlock) (h1 : ed.hoveredBlock < ed.speechZones.length)
    (hc : m.control = true) (hsel : ed.hoveredBlock ∈ ed.selectedBlocks) :
    (blockClicked m ed).selectedBlocks =
      ed.selectedBlocks.filter (fun b => decide (b ≠ ed.hoveredBlock)) ∧
    ed.hoveredBlock ∉ (blockClicked m ed).selectedBlocks ∧
    (∀ k, k ≠ ed.hoveredBlock → (k ∈ (blockClicked m ed).selectedBlocks ↔ k ∈ ed.selectedBlocks)) ∧
    (blockClicked m ed).lastClickedBlock = ed.hoveredBlock := by
  have h2 : -1 < ed.hoveredBlock := by omega
  have e : (blockClicked m ed).selectedBlocks =
      ed.selectedBlocks.filter (fun b => decide (b ≠ ed.hoveredBlock)) := by
    have h3 : ed.selectedBlocks.contains ed.hoveredBlock = true := by simpa using hsel
    unfold blockClicked
    simp only [gt_iff_lt, h2, h1, and_self, if_true, hc, h3]
    apply List.filter_congr
    intro b _
    by_cases hb : b = ed.hoveredBlock <;> simp [hb]
  have e2 : (blockClicked m ed).lastClickedBlock = ed.hoveredBlock := by
    unfold blockClicked
    simp [h2, h1, h0]
  refine ⟨e, ?_, ?_, e2⟩
  · rw [e]; simp
  · intro k hk
    rw [e]; simp [hk]

/-- C12 (amended) at a concrete state: blocks 1 and 2 selected, Ctrl-click on 1. -/
theorem blockClicked_control_on_selected_witness :
    (blockClicked controlClick
      { scenarioEditor with hoveredBlock := 1, selectedBlocks := [1, 2],
                            lastClickedBlock := 2 }).selectedBlocks =
      [(1 : Int), 2].filter (fun b => decide (b ≠ 1)) ∧
    (blockClicked controlClick
      { scenarioEditor with hoveredBlock := 1, selectedBlocks := [1, 2],
                            lastClickedBlock := 2 }).lastClickedBlock = 1 :=
  have h := blockClicked_control_on_selected
    { scenarioEditor with hoveredBlock := 1, selectedBlocks := [1, 2], lastClickedBlock := 2 }
    controlClick (by decide) (by decide) rfl (by decide)
  ⟨h.1, h.2.2.2⟩

/-- C13 (as stated, fails on the code): after a plain click on block 1 and a
Ctrl-click on block 3 the selection is [1, 3] and `lastClickedBlock` is 3; a
Shift-click on the selected block 1 then leaves the selection [1]: block 3 of the
previous selection and block 2 of the range 1..3 are not in it. -/
theorem blockClicked_shift_on_selected_resets :
    (blockClicked controlClick (hoverBlock 3
      (blockClicked plainClick (hoverBlock 1 scenarioEditor)))).selectedBlocks = [1, 3] ∧
    (blockClicked controlClick (hoverBlock 3
      (blockClicked plainClick (hoverBlock 1 scenarioEditor)))).lastClickedBlock = 3 ∧
    (blockClicked shiftClick (hoverBlock 1 (blockClicked controlClick (hoverBlock 3
      (blockClicked plainClick (hoverBlock 1 scenarioEditor)))))).selectedBlocks = [1] ∧
    (3 : Int) ∉ (blockClicked shiftClick (hoverBlock 1 (blockClicked controlClick (hoverBlock 3
      (blockClicked plainClick (hoverBlock 1 scenarioEditor)))))).selectedBlocks ∧
    (2 : Int) ∉ (blockClicked shiftClick (hoverBlock 1 (blockClicked controlClick (hoverBlock 3
      (blockClicked plainClick (hoverBlock 1 scenarioEditor)))))).selectedBlocks := by
  decide!

/-- C13 (amended): for every state with `lastClickedBlock` = j ≥ 0 and every valid
hovered block i, a Shift-click on i (Shift without Ctrl) sets `lastClickedBlock` to
i; when i is not selected, the selection becomes the previous selection united
with every index from min(i, j) to max(i, j); when i is already selected, the
selection becomes exactly [i]. -/
theorem blockClicked_shift_extends_or_resets (ed : Editor) (m : Modifiers)
    (h0 : 0 ≤ ed.hoveredBlock) (h1 : ed.hoveredBlock < ed.speechZones.length)
    (hc : m.control = false) (hs : m.shift = true) (hj : 0 ≤ ed.lastClickedBlock) :
    (ed.hoveredBlock ∉ ed.selectedBlocks →
      ∀ k, k ∈ (blockClicked m ed).selectedBlocks ↔
        k ∈ ed.selectedBlocks ∨
          (min ed.hoveredBlock ed.lastClickedBlock ≤ k ∧
            k ≤ max ed.hoveredBlock ed.lastClickedBlock)) ∧
    (ed.hoveredBlock ∈ ed.selectedBlocks →
      (blockClicked m ed).selectedBlocks = [ed.hoveredBlock]) ∧
    (blockClicked m ed).lastClickedBlock = ed.hoveredBlock := by
  have h2 : -1 < ed.hoveredBlock := by omega
  have h3 : -1 < ed.lastClickedBlock := by omega
  refine ⟨?_, ?_, ?_⟩
  · intro hsel k
    have e : (blockClicked m ed).selectedBlocks =
        (blockRange (min ed.lastClickedBlock ed.hoveredBlock)
          (max ed.lastClickedBlock ed.hoveredBlock)).foldl addIfMissing ed.selectedBlocks := by
      unfold blockClicked
      simp [h2, h1, hc, hs, h3, hsel]
    rw [e, mem_foldl_addIfMissing, mem_blockRange, min_comm, max_comm]
  · intro hsel
    unfold blockClicked
    simp [h2, h1, hc, hsel]
  · unfold blockClicked
    simp [h2, h1, h0]

/-- C13 (amended) at a concrete state: blocks 1 selected and last clicked, Shift-click
on block 3, which is not selected: the selection becomes [1, 2, 3]. -/
theorem blockClicked_shift_extends_or_resets_witness :
    (∀ k, k ∈ (blockClicked shiftClick
        { scenarioEditor with hoveredBlock := 3, selectedBlocks := [1],
                              lastClickedBlock := 1 }).selectedBlocks ↔
      k ∈ [(1 : Int)] ∨ (min (3 : Int) 1 ≤ k ∧ k ≤ max (3 : Int) 1)) ∧
    (blockClicked shiftClick
      { scenarioEditor with hoveredBlock := 3, selectedBlocks := [1],
                            lastClickedBlock := 1 }).lastClickedBlock = 3 :=
  have h := blockClicked_shift_extends_or_resets
    { scenarioEditor with hoveredBlock := 3, selectedBlocks := [1], lastClickedBlock := 1 }
    shiftClick (by decide) (by decide) rfl rfl (by decide)
  ⟨h.1 (by decide), h.2.2⟩

theorem insertCells_speechZones (ed : Editor) (cells : List Cell) :
    (ed.insertCells cells).speechZones = ed.speechZones := by
  unfold Editor.insertCells
  split <;> rfl

theorem insertSilence_speechZones (fps : ℚ) (startFrame : Int) (w : TextBasedEdit) :
    (insertSilence fps startFrame w).visualEditor.speechZones =
      w.visualEditor.speechZones ++
        [(framesToSeconds fps w.lastPosition, framesToSeconds fps (startFrame - 1))] := by
  simp [insertSilence, Editor.insertBlock, insertCells_speechZones, Editor.moveCursorEnd]

theorem insertSilence_lastPosition (fps : ℚ) (startFrame : Int) (w : TextBasedEdit) :
    (insertSilence fps startFrame w).lastPosition = w.lastPosition := rfl

/-- What `readSentence` gives for a sentence whose first word has a `start` and whose
last word has an `end`. -/
theorem readSentence_of_words (fps : ℚ) (w : TextBasedEdit) (result : List JsonValue)
    (word : String) (s : ℚ) (e0 : Option ℚ) (word2 : String) (s2 : Option ℚ) (e : ℚ)
    (hfirst : result.head? = some (JsonValue.object word (some s) e0))
    (hlast : result.getLast? = some (JsonValue.object word2 s2 (some e))) :
    readSentence fps result w =
      ({ (if secondsToFrames fps (s + w.visualEditor.clipOffset) > w.lastPosition + 1 then
            insertSilence fps (secondsToFrames fps (s + w.visualEditor.clipOffset)) w
          else w) with
          lastPosition := secondsToFrames fps (e + w.visualEditor.clipOffset) },
        (s + w.visualEditor.clipOffset, e + w.visualEditor.clipOffset)) := by
  unfold readSentence
  rw [hfirst, hlast]

/-- C15 (as stated, fails on the code): after a fresh start at 25 frames per second
and the sentence {hello 0.2-0.6, world 0.7-1.1}, `speechZones` is not [(0.2, 1.1)]
and the transcript is not the single block "hello world". -/
theorem slotProcessSpeech_first_sentence_not_alone :
    (slotProcessSpeech 25 (SpeechData.withResult helloWorld) freshRun).visualEditor.speechZones
      ≠ [(1 / 5, 11 / 10)] ∧
    blockTexts (slotProcessSpeech 25 (SpeechData.withResult helloWorld) freshRun).visualEditor.doc
      ≠ ["hello world"] := by
  decide!

/-- C15 (amended): after a fresh start (empty transcript, `lastPosition` = 0,
`clipOffset` = 0) at 25 frames per second on a clip of ten seconds, the sentence
{hello 0.2-0.6, world 0.7-1.1} leaves the silence block "No speech", then the block
"hello world" and an empty block; `speechZones` equals [(0, 0.16), (0.2, 1.1)]; and
`lastPosition` is 27, within one frame of 28. -/
theorem slotProcessSpeech_first_sentence :
    freshRun.visualEditor.doc = [] ∧ freshRun.lastPosition = 0 ∧
    freshRun.visualEditor.clipOffset = 0 ∧
    blockTexts (slotProcessSpeech 25 (SpeechData.withResult helloWorld) freshRun).visualEditor.doc
      = ["No speech", "hello world", ""] ∧
    (slotProcessSpeech 25 (SpeechData.withResult helloWorld) freshRun).visualEditor.speechZones
      = [(0, 4 / 25), (1 / 5, 11 / 10)] ∧
    (slotProcessSpeech 25 (SpeechData.withResult helloWorld) freshRun).lastPosition = 27 ∧
    |(slotProcessSpeech 25 (SpeechData.withResult helloWorld) freshRun).lastPosition - 28| ≤ 1 := by
  refine ⟨by decide!, by decide!, by decide!, by decide!, by decide!, by decide!, ?_⟩
  have h : (slotProcessSpeech 25 (SpeechData.withResult helloWorld) freshRun).lastPosition = 27 := by
    decide!
  rw [h]
  decide

/-- The zones that a sentence with a first start and a last end appends. -/
theorem speechZones_after_sentence (fps : ℚ) (w : TextBasedEdit)
    (result : List JsonValue)
    (word : String) (s : ℚ) (e0 : Option ℚ) (word2 : String) (s2 : Option ℚ) (e : ℚ)
    (hfirst : result.head? = some (JsonValue.object word (some s) e0))
    (hlast : result.getLast? = some (JsonValue.object word2 s2 (some e))) :
    (slotProcessSpeech fps (SpeechData.withResult result) w).visualEditor.speechZones =
      w.visualEditor.speechZones ++
      (if secondsToFrames fps (s + w.visualEditor.clipOffset) > w.lastPosition + 1 then
        [(framesToSeconds fps w.lastPosition,
          framesToSeconds fps (secondsToFrames fps (s + w.visualEditor.clipOffset) - 1))]
       else []) ++
      [(s + w.visualEditor.clipOffset, e + w.visualEditor.clipOffset)] := by
  have hne : result.isEmpty = false := by
    cases result with
    | nil => simp at hfirst
    | cons a rest => rfl
  unfold slotProcessSpeech
  simp only [readSentence_of_words fps w result word s e0 word2 s2 e hfirst hlast, hne,
    Bool.not_false, if_true]
  by_cases hF : secondsToFrames fps (s + w.visualEditor.clipOffset) > w.lastPosition + 1
  · simp only [hF, if_true]
    split <;>
      simp [Editor.insertBlock, insertCells_speechZones, insertSilence_speechZones]
  · simp only [hF, if_false]
    split <;> simp [Editor.insertBlock, insertCells_speechZones]

/-- C16: when `slotProcessSpeech` receives a sentence whose first word starts at
frame F (clip coordinates) and whose last word has an end, it appends to
`speechZones` the silence zone (`lastPosition` / fps, (F - 1) / fps) followed by the
zone of the sentence if F > `lastPosition` + 1, and the zone of the sentence alone
otherwise. -/
theorem slotProcessSpeech_silence_before_sentence (fps : ℚ) (w : TextBasedEdit)
    (result : List JsonValue)
    (word : String) (s : ℚ) (e0 : Option ℚ) (word2 : String) (s2 : Option ℚ) (e : ℚ)
    (hfirst : result.head? = some (JsonValue.object word (some s) e0))
    (hlast : result.getLast? = some (JsonValue.object word2 s2 (some e))) :
    (slotProcessSpeech fps (SpeechData.withResult result) w).visualEditor.speechZones =
      w.visualEditor.speechZones ++
      (if secondsToFrames fps (s + w.visualEditor.clipOffset) > w.lastPosition + 1 then
        [(framesToSeconds fps w.lastPosition,
          framesToSeconds fps (secondsToFrames fps (s + w.visualEditor.clipOffset) - 1))]
       else []) ++
      [(s + w.visualEditor.clipOffset, e + w.visualEditor.clipOffset)] :=
  speechZones_after_sentence fps w result word s e0 word2 s2 e hfirst hlast

/-- C16 at the input of scenario 2: with `lastPosition` = 28 at 25 frames per second
the sentence {again 3.0-3.4} appends the zones (28/25, 74/25) and (3.0, 3.4). -/
theorem slotProcessSpeech_silence_before_sentence_witness :
    (slotProcessSpeech 25 (SpeechData.withResult [token "again" 3 (17 / 5)])
      { freshRun with lastPosition := 28 }).visualEditor.speechZones =
      [(28 / 25, 74 / 25), (3, 17 / 5)] := by
  have h := slotProcessSpeech_silence_before_sentence 25 { freshRun with lastPosition := 28 }
    [token "again" 3 (17 / 5)] "again" 3 (some (17 / 5)) "again" (some 3) (17 / 5) rfl rfl
  rw [h]
  decide!

/-- C17 (as stated, fails on the code): for the empty object {} `slotProcessSpeech`
appends nothing: the state, and with it `speechZones`, is unchanged. -/
theorem slotProcessSpeech_empty_object_appends_nothing :
    slotProcessSpeech 25 SpeechData.emptyObject freshRun = freshRun ∧
    (slotProcessSpeech 25 SpeechData.emptyObject freshRun).visualEditor.speechZones = [] := by
  decide!

/-- C17 (amended): for every non-empty JSON object without a `result` array
`slotProcessSpeech` appends to `speechZones` exactly one final silence zone,
((`lastPosition` + 1) / fps, `clipDuration`); for the empty object {} it changes
nothing. -/
theorem slotProcessSpeech_final_silence (fps : ℚ) (w : TextBasedEdit) :
    (slotProcessSpeech fps SpeechData.withoutResult w).visualEditor.speechZones =
      w.visualEditor.speechZones ++
        [(framesToSeconds fps (w.lastPosition + 1), w.clipDuration)] ∧
    slotProcessSpeech fps SpeechData.emptyObject w = w := by
  constructor
  · simp [slotProcessSpeech, insertCells_speechZones, Editor.moveCursorEnd]
  · rfl

/-- C18 (as stated, fails on the code): after a fresh start, the sentence
{late 3.0-4.0} sets `lastPosition` to 100; the sentence {hello 0.2-0.6, world
0.7-1.1}, whose words lie before it, then sets `lastPosition` to 27. -/
theorem slotProcessSpeech_lastPosition_decreases :
    (slotProcessSpeech 25 (SpeechData.withResult [token "late" 3 4]) freshRun).lastPosition
      = 100 ∧
    (slotProcessSpeech 25 (SpeechData.withResult helloWorld)
      (slotProcessSpeech 25 (SpeechData.withResult [token "late" 3 4]) freshRun)).lastPosition
      = 27 ∧
    (slotProcessSpeech 25 (SpeechData.withResult helloWorld)
      (slotProcessSpeech 25 (SpeechData.withResult [token "late" 3 4]) freshRun)).lastPosition <
    (slotProcessSpeech 25 (SpeechData.withResult [token "late" 3 4]) freshRun).lastPosition := by
  decide!

/-- The value of `lastPosition` behind `readSentence`: the frame of the end of the
last word when the first word has a `start` and the last word an `end`, the old
value otherwise. -/
theorem readSentence_lastPosition (fps : ℚ) (w : TextBasedEdit) (result : List JsonValue) :
    (readSentence fps result w).1.lastPosition =
      (match result.head?, result.getLast? with
       | some (JsonValue.object _ (some _) _), some (JsonValue.object _ _ (some e)) =>
         secondsToFrames fps (e + w.visualEditor.clipOffset)
       | _, _ => w.lastPosition) := by
  have hw1 : ∀ F : Int, (if F > w.lastPosition + 1 then insertSilence fps F w
      else w).lastPosition = w.lastPosition := by
    intro F
    split <;> rfl
  unfold readSentence
  cases hh : result.head? with
  | none => rfl
  | some v =>
    cases v with
    | notObject => rfl
    | object word s e0 =>
      cases s with
      | none => rfl
      | some s =>
        cases hl : result.getLast? with
        | none => exact hw1 _
        | some v2 =>
          cases v2 with
          | notObject => exact hw1 _
          | object word2 s2 e =>
            cases e with
            | none => exact hw1 _
            | some e => rfl

/-- C18 (amended): after a chunk `lastPosition` is the frame of the end of the last
word (clip offset added) when the chunk is an object whose `result` is an array
with a first element that is an object with a `start` and a last element that is
an object with an `end`; after every other chunk it has the value it had before.
The assignment compares nothing: `lastPosition` after the chunk is greater than or
equal to its value before exactly when the chunk assigns nothing or that frame is
greater than or equal to the value before. -/
theorem slotProcessSpeech_lastPosition_assigned (fps : ℚ) (data : SpeechData)
    (w : TextBasedEdit) :
    (slotProcessSpeech fps data w).lastPosition =
      (match data with
       | SpeechData.withResult result =>
         match result.head?, result.getLast? with
         | some (JsonValue.object _ (some _) _), some (JsonValue.object _ _ (some e)) =>
           secondsToFrames fps (e + w.visualEditor.clipOffset)
         | _, _ => w.lastPosition
       | _ => w.lastPosition) ∧
    (w.lastPosition ≤ (slotProcessSpeech fps data w).lastPosition ↔
      (match data with
       | SpeechData.withResult result =>
         match result.head?, result.getLast? with
         | some (JsonValue.object _ (some _) _), some (JsonValue.object _ _ (some e)) =>
           w.lastPosition ≤ secondsToFrames fps (e + w.visualEditor.clipOffset)
         | _, _ => True
       | _ => True)) := by
  cases data with
  | notObject => exact ⟨rfl, iff_of_true (le_refl _) trivial⟩
  | emptyObject => exact ⟨rfl, iff_of_true (le_refl _) trivial⟩
  | withoutResult => exact ⟨rfl, iff_of_true (le_refl _) trivial⟩
  | withResult result =>
    have e1 : (slotProcessSpeech fps (SpeechData.withResult result) w).lastPosition =
        (readSentence fps result w).1.lastPosition := by
      unfold slotProcessSpeech
      simp only
      split <;> rfl
    rw [e1, readSentence_lastPosition]
    refine ⟨rfl, ?_⟩
    dsimp only
    split
    · exact Iff.rfl
    · exact iff_of_true (le_refl _) trivial

/-- C19 (fails on the code): start before end in every zone. For the zone
(100, 200) of a clip analysed "zone only" at 25 frames per second,
`startRecognition` sets `clipOffset` = 4, `clipDuration` = 4 and `lastPosition` =
100; the terminal object then appends the zone (101/25, 4), whose start 4.04 is
after its end. On a whole clip of two seconds the sentence {word 1.0-2.0} followed
by the terminal object appends (51/25, 2). -/
theorem slotProcessSpeech_final_silence_starts_after_end :
    (slotProcessSpeech 25 SpeechData.withoutResult
      (startRecognition 25 true (ProjectItem.clipItem ⟨100, 200⟩ 10)
        (TextBasedEdit.initial "2"))).visualEditor.speechZones = [(101 / 25, 4)] ∧
    ¬ ((101 / 25 : ℚ) ≤ 4) ∧
    (slotProcessSpeech 25 SpeechData.withoutResult
      (slotProcessSpeech 25 (SpeechData.withResult [token "word" 1 2])
        (startRecognition 25 false (ProjectItem.clipItem ⟨0, 50⟩ 2)
          (TextBasedEdit.initial "2")))).visualEditor.speechZones =
      [(0, 24 / 25), (1, 2), (51 / 25, 2)] ∧
    ¬ ((51 / 25 : ℚ) ≤ 2) := by
  refine ⟨by decide!, by decide!, by decide!, by decide!⟩

/-! ## Zones and blocks -/

theorem splitFields_ne_nil (sep : Char) (s : List Char) : splitFields sep s ≠ [] := by
  cases s with
  | nil => simp [splitFields]
  | cons c rest =>
    unfold splitFields
    split
    · simp
    · split <;> simp

theorem splitFields_of_not_mem (sep : Char) (a : List Char) (h : sep ∉ a) :
    splitFields sep a = [a] := by
  induction a with
  | nil => rfl
  | cons c rest ih =>
    have hc : c ≠ sep := fun e => h (e ▸ List.mem_cons_self _ _)
    have hr : sep ∉ rest := fun e => h (List.mem_cons_of_mem _ e)
    simp [splitFields, hc, ih hr]

theorem splitFields_append_sep (sep : Char) (a b : List Char) (h : sep ∉ a) :
    splitFields sep (a ++ sep :: b) = a :: splitFields sep b := by
  induction a with
  | nil => simp [splitFields]
  | cons c rest ih =>
    have hc : c ≠ sep := fun e => h (e ▸ List.mem_cons_self _ _)
    have hr : sep ∉ rest := fun e => h (List.mem_cons_of_mem _ e)
    simp [splitFields, hc, ih hr]

theorem intercalate_splitFields (sep : Char) (s : List Char) :
    List.intercalate [sep] (splitFields sep s) = s := by
  induction s with
  | nil => simp [splitFields, List.intercalate]
  | cons c rest ih =>
    obtain ⟨f, fs, hf⟩ : ∃ f fs, splitFields sep rest = f :: fs := by
      cases h : splitFields sep rest with
      | nil => exact absurd h (splitFields_ne_nil sep rest)
      | cons f fs => exact ⟨f, fs, rfl⟩
    rw [hf] at ih
    by_cases hc : c = sep
    · subst hc
      simp only [splitFields, if_true, hf]
      simp only [List.intercalate, List.intersperse_cons_cons, List.flatten_cons, List.nil_append,
        List.singleton_append] at ih ⊢
      rw [ih]
    · simp only [splitFields, hc, if_false, hf]
      cases fs with
      | nil =>
        simp only [List.intercalate, List.intersperse_singleton, List.flatten_cons,
          List.flatten_nil, List.append_nil] at ih ⊢
        rw [ih]
      | cons g gs =>
        simp only [List.intercalate, List.intersperse_cons_cons, List.flatten_cons,
          List.cons_append] at ih ⊢
        rw [ih]

theorem sectionFrom_after_hash (binId rest : List Char) (h : '#' ∉ binId) :
    sectionFrom '#' 1 (binId ++ '#' :: rest) = rest := by
  unfold sectionFrom
  rw [splitFields_append_sep _ _ _ h]
  exact intercalate_splitFields '#' rest

/-! ## Numbers as text: `QString::arg` and `QString::toDouble` -/

theorem digitChar_toNat (d : Nat) : (digitChar d).toNat = 48 + d % 10 := by
  have h := Nat.mod_lt d (show 10 > 0 by decide)
  unfold digitChar
  interval_cases hd : d % 10 <;> rfl

theorem isDigit_digitChar (d : Nat) : isDigit (digitChar d) = true := by
  have h := Nat.mod_lt d (show 10 > 0 by decide)
  unfold isDigit
  rw [digitChar_toNat]
  simp
  omega

theorem digitsValue_digitChar_cons (d : Nat) : (digitChar d).toNat - 48 = d % 10 := by
  rw [digitChar_toNat]; omega

theorem foldl_digits (l : List Char) (v : Nat) :
    l.foldl (fun v c => 10 * v + (c.toNat - 48)) v =
      v * 10 ^ l.length + l.foldl (fun v c => 10 * v + (c.toNat - 48)) 0 := by
  induction l generalizing v with
  | nil => simp
  | cons c rest ih =>
    simp only [List.foldl_cons, List.length_cons]
    rw [ih, ih (10 * 0 + (c.toNat - 48))]
    ring

theorem digitsValue_append (a b : List Char) :
    digitsValue (a ++ b) = digitsValue a * 10 ^ b.length + digitsValue b := by
  unfold digitsValue
  rw [List.foldl_append, foldl_digits]

theorem digitsValue_replicate_zero (j : Nat) : digitsValue (List.replicate j '0') = 0 := by
  induction j with
  | zero => rfl
  | succ j ih =>
    rw [List.replicate_succ]
    have := digitsValue_append ['0'] (List.replicate j '0')
    simp only [List.singleton_append] at this
    have h0 : digitsValue ['0'] = 0 := rfl
    rw [this, ih, h0]
    simp

theorem digitsValue_mantissaDigits (m : Nat) (h : m < 1000000) :
    digitsValue (mantissaDigits m) = m := by
  unfold mantissaDigits digitsValue
  simp only [List.foldl_cons, List.foldl_nil, digitsValue_digitChar_cons]
  omega

theorem mantissaDigits_length (m : Nat) : (mantissaDigits m).length = 6 := rfl

theorem mantissaDigits_isDigit (m : Nat) : ∀ c ∈ mantissaDigits m, isDigit c = true := by
  intro c hc
  unfold mantissaDigits at hc
  simp only [List.mem_cons, List.mem_singleton, List.not_mem_nil, or_false] at hc
  rcases hc with h | h | h | h | h | h <;> rw [h] <;> exact isDigit_digitChar _

theorem stripZeros_spec (l : List Char) :
    ∃ j, l = stripZeros l ++ List.replicate j '0' := by
  refine ⟨(l.reverse.takeWhile (fun c => c == '0')).length, ?_⟩
  have h1 : l.reverse = l.reverse.takeWhile (fun c => c == '0') ++
      l.reverse.dropWhile (fun c => c == '0') := (List.takeWhile_append_dropWhile _ _).symm
  have h2 : l.reverse.takeWhile (fun c => c == '0') =
      List.replicate (l.reverse.takeWhile (fun c => c == '0')).length '0' := by
    rw [List.eq_replicate_iff]
    refine ⟨rfl, ?_⟩
    intro b hb
    have := List.mem_takeWhile_imp hb
    simpa using this
  have h3 : l = (l.reverse.dropWhile (fun c => c == '0')).reverse ++
      (l.reverse.takeWhile (fun c => c == '0')).reverse := by
    rw [← List.reverse_append, ← h1, List.reverse_reverse]
  unfold stripZeros
  rw [h2, List.reverse_replicate] at h3
  exact h3

theorem mem_stripZeros (l : List Char) (c : Char) (h : c ∈ stripZeros l) : c ∈ l := by
  unfold stripZeros at h
  rw [List.mem_reverse] at h
  have := (List.dropWhile_sublist (fun c => c == '0') (l := l.reverse)).subset h
  simpa using this

theorem natDigitsAux_append (fuel n : Nat) (acc : List Char) :
    natDigitsAux fuel n acc = natDigitsAux fuel n [] ++ acc := by
  induction fuel generalizing n acc with
  | zero => rfl
  | succ fuel ih =>
    unfold natDigitsAux
    split
    · rfl
    · rw [ih, ih (n / 10) [digitChar n]]
      simp

theorem natDigitsAux_value (fuel n : Nat) (h : n < fuel) :
    digitsValue (natDigitsAux fuel n []) = n := by
  induction fuel generalizing n with
  | zero => omega
  | succ fuel ih =>
    unfold natDigitsAux
    split
    · next hn =>
      unfold digitsValue
      simp only [List.foldl_cons, List.foldl_nil, digitsValue_digitChar_cons]
      omega
    · next hn =>
      rw [natDigitsAux_append, digitsValue_append, ih (n / 10) (by omega)]
      unfold digitsValue
      simp only [List.foldl_cons, List.foldl_nil, digitsValue_digitChar_cons, List.length_singleton]
      omega

theorem natDigitsAux_isDigit (fuel n : Nat) (acc : List Char)
    (hacc : ∀ c ∈ acc, isDigit c = true) :
    ∀ c ∈ natDigitsAux fuel n acc, isDigit c = true := by
  induction fuel generalizing n acc with
  | zero => exact hacc
  | succ fuel ih =>
    unfold natDigitsAux
    split
    · intro c hc
      rcases List.mem_cons.1 hc with h | h
      · rw [h]; exact isDigit_digitChar _
      · exact hacc c h
    · apply ih
      intro c hc
      rcases List.mem_cons.1 hc with h | h
      · rw [h]; exact isDigit_digitChar _
      · exact hacc c h

theorem natDigits_value (n : Nat) : digitsValue (natDigits n) = n :=
  natDigitsAux_value (n + 1) n (by omega)

theorem natDigits_isDigit (n : Nat) : ∀ c ∈ natDigits n, isDigit c = true :=
  natDigitsAux_isDigit _ _ [] (by simp)

theorem natDigitsAux_ne_nil (fuel n : Nat) (acc : List Char) :
    natDigitsAux (fuel + 1) n acc ≠ [] := by
  induction fuel generalizing n acc with
  | zero =>
    unfold natDigitsAux
    split
    · simp
    · simp [natDigitsAux]
  | succ fuel ih =>
    unfold natDigitsAux
    split
    · simp
    · exact ih _ _

theorem natDigits_ne_nil (n : Nat) : natDigits n ≠ [] := natDigitsAux_ne_nil n n []


theorem span_digits (ds rest : List Char) (hds : ∀ c ∈ ds, isDigit c = true)
    (hrest : ∀ c t, rest = c :: t → isDigit c = false) :
    (ds ++ rest).takeWhile isDigit = ds ∧ (ds ++ rest).dropWhile isDigit = rest := by
  rw [List.takeWhile_append_of_pos hds, List.dropWhile_append_of_pos hds]
  cases rest with
  | nil => simp
  | cons c t =>
    have := hrest c t rfl
    simp [List.takeWhile_cons, List.dropWhile_cons, this]

theorem unsignedValue_of_parts (whole frac tail : List Char)
    (hw : ∀ c ∈ whole, isDigit c = true) (hf : ∀ c ∈ frac, isDigit c = true)
    (htail : ∀ c t, tail = c :: t → isDigit c = false ∧ c ≠ '.') :
    unsignedValue (withPoint whole frac ++ tail) =
      if whole.isEmpty && frac.isEmpty then none
      else
        match tail with
        | [] => some ((digitsValue (whole ++ frac) : ℚ) / ((10 ^ frac.length : Nat) : ℚ))
        | c :: t =>
          if c = 'e' ∨ c = 'E' then (exponentValue t).map (fun x =>
            scale10 ((digitsValue (whole ++ frac) : ℚ) / ((10 ^ frac.length : Nat) : ℚ)) x)
          else none := by
  have htail' : ∀ c t, tail = c :: t → isDigit c = false := fun c t h => (htail c t h).1
  by_cases hfe : frac = []
  · subst hfe
    have hs := span_digits whole tail hw htail'
    have htxt : withPoint whole [] ++ tail = whole ++ tail := rfl
    rw [htxt]
    unfold unsignedValue
    rw [hs.1, hs.2]
    cases tail with
    | nil => rfl
    | cons c t =>
      have hc : c ≠ '.' := (htail c t rfl).2
      have e1 : (match c :: t with
          | '.' :: t => List.takeWhile isDigit t
          | _ => []) = [] := by
        split
        · next h => cases h; exact absurd rfl hc
        · rfl
      have e2 : (match c :: t with
          | '.' :: t => List.dropWhile isDigit t
          | _ => c :: t) = c :: t := by
        split
        · next h => cases h; exact absurd rfl hc
        · rfl
      simp only [e1, e2]
  · have hfe' : frac.isEmpty = false := by
      cases frac with
      | nil => exact absurd rfl hfe
      | cons a b => rfl
    have htxt : withPoint whole frac ++ tail = whole ++ ('.' :: (frac ++ tail)) := by
      unfold withPoint
      simp [hfe']
    have hs := span_digits whole ('.' :: (frac ++ tail)) hw (by
      intro c t h; cases h; rfl)
    have hs2 := span_digits frac tail hf htail'
    rw [htxt]
    unfold unsignedValue
    rw [hs.1, hs.2]
    simp only [hs2.1, hs2.2]

theorem unsignedValue_plain (whole frac : List Char)
    (hw : ∀ c ∈ whole, isDigit c = true) (hf : ∀ c ∈ frac, isDigit c = true)
    (hne : whole ≠ []) :
    unsignedValue (withPoint whole frac) =
      some ((digitsValue (whole ++ frac) : ℚ) / ((10 ^ frac.length : Nat) : ℚ)) := by
  have h := unsignedValue_of_parts whole frac [] hw hf (by intro c t h; cases h)
  have hwe : whole.isEmpty = false := by
    cases whole with
    | nil => exact absurd rfl hne
    | cons a b => rfl
  rw [List.append_nil] at h
  rw [h]
  simp [hwe]

theorem unsignedValue_exponent (whole frac t : List Char)
    (hw : ∀ c ∈ whole, isDigit c = true) (hf : ∀ c ∈ frac, isDigit c = true)
    (hne : whole ≠ []) :
    unsignedValue (withPoint whole frac ++ 'e' :: t) =
      (exponentValue t).map (fun x =>
        scale10 ((digitsValue (whole ++ frac) : ℚ) / ((10 ^ frac.length : Nat) : ℚ)) x) := by
  have h := unsignedValue_of_parts whole frac ('e' :: t) hw hf (by
    intro c t h; cases h; exact ⟨rfl, by decide⟩)
  have hwe : whole.isEmpty = false := by
    cases whole with
    | nil => exact absurd rfl hne
    | cons a b => rfl
  rw [h]
  simp [hwe]

theorem exponentValue_exponentText (x : Int) :
    exponentValue (exponentText x).tail = some x := by
  have hd : ∀ n : Nat, (if n < 10 then ['0', digitChar n] else natDigits n) ≠ [] ∧
      (∀ c ∈ (if n < 10 then ['0', digitChar n] else natDigits n), isDigit c = true) ∧
      digitsValue (if n < 10 then ['0', digitChar n] else natDigits n) = n := by
    intro n
    split
    · next h =>
      refine ⟨by simp, ?_, ?_⟩
      · intro c hc
        rcases List.mem_cons.1 hc with h1 | h1
        · rw [h1]; rfl
        · rw [List.mem_singleton.1 h1]; exact isDigit_digitChar _
      · unfold digitsValue
        simp only [List.foldl_cons, List.foldl_nil, digitsValue_digitChar_cons]
        have : ('0' : Char).toNat - 48 = 0 := rfl
        rw [this]
        omega
    · exact ⟨natDigits_ne_nil n, natDigits_isDigit n, natDigits_value n⟩
  obtain ⟨h1, h2, h3⟩ := hd x.natAbs
  have hall : (if x.natAbs < 10 then ['0', digitChar x.natAbs] else natDigits x.natAbs).all isDigit
      = true := by
    rw [List.all_eq_true]; exact h2
  have hemp : (if x.natAbs < 10 then ['0', digitChar x.natAbs] else natDigits x.natAbs).isEmpty
      = false := by
    generalize (if x.natAbs < 10 then ['0', digitChar x.natAbs] else natDigits x.natAbs) = l at h1
    cases l with
    | nil => exact absurd rfl h1
    | cons a b => rfl
  unfold exponentText
  simp only [List.tail_cons]
  by_cases hx : x < 0
  · simp only [hx, if_true]
    unfold exponentValue
    simp only [hall, hemp, h3]
    simp
    rw [abs_of_neg hx]
    omega
  · simp only [hx, if_false]
    unfold exponentValue
    simp only [hall, hemp, h3]
    simp
    omega


theorem scale10_eq (v : ℚ) (x : Int) : scale10 v x = v * (10 : ℚ) ^ x := by
  unfold scale10
  split
  · next h =>
    congr 1
    rw [Nat.cast_pow]
    conv_rhs => rw [← Int.toNat_of_nonneg h]
    rw [zpow_natCast]
    rfl
  · next h =>
    have h' : 0 ≤ -x := by omega
    rw [div_eq_mul_inv]
    congr 1
    rw [Nat.cast_pow]
    have : x = -((-x).toNat : Int) := by rw [Int.toNat_of_nonneg h']; ring
    conv_rhs => rw [this]
    rw [zpow_neg, zpow_natCast]
    rfl

theorem digitCountAux_spec (fuel n : Nat) (h : n ≤ fuel) :
    1 ≤ digitCountAux fuel n ∧ n < 10 ^ digitCountAux fuel n ∧
      (1 ≤ n → 10 ^ (digitCountAux fuel n - 1) ≤ n) := by
  induction fuel generalizing n with
  | zero =>
    have : n = 0 := by omega
    subst this
    exact ⟨le_refl _, by decide, by intro h; omega⟩
  | succ fuel ih =>
    unfold digitCountAux
    split
    · next hn => exact ⟨le_refl _, by simpa using hn, by intro h1; simpa using h1⟩
    · next hn =>
      obtain ⟨h1, h2, h3⟩ := ih (n / 10) (by omega)
      refine ⟨by omega, ?_, ?_⟩
      · rw [pow_succ]
        omega
      · intro _
        have h4 := h3 (by omega)
        have h5 : digitCountAux fuel (n / 10) + 1 - 1 = (digitCountAux fuel (n / 10) - 1) + 1 := by
          omega
        rw [h5, pow_succ]
        omega

theorem digitCount_spec (n : Nat) :
    1 ≤ digitCount n ∧ n < 10 ^ digitCount n ∧ (1 ≤ n → 10 ^ (digitCount n - 1) ≤ n) :=
  digitCountAux_spec n n (le_refl n)

/-- The decimal exponent is the one of the definition: 10 ^ x ≤ a < 10 ^ (x + 1). -/
theorem decimalExponent_spec (a : ℚ) (ha : 0 < a) :
    (10 : ℚ) ^ decimalExponent a ≤ a ∧ a < (10 : ℚ) ^ (decimalExponent a + 1) := by
  obtain ⟨hK1, hK2, _⟩ := digitCount_spec a.den
  set K := digitCount a.den with hK
  have h10 : (0 : ℚ) < (10 : ℚ) ^ K := by positivity
  have hden : (a.den : ℚ) < (10 : ℚ) ^ K := by exact_mod_cast hK2
  have hdpos : (0 : ℚ) < (a.den : ℚ) := by exact_mod_cast a.den_pos
  have hnum : (1 : ℚ) ≤ (a.num : ℚ) := by
    have : 0 < a.num := Rat.num_pos.2 ha
    exact_mod_cast this
  have hsc : scale10 a (K : Int) = a * (10 : ℚ) ^ K := by
    rw [scale10_eq, zpow_natCast]
  have hge1 : (1 : ℚ) ≤ a * (10 : ℚ) ^ K := by
    have e : a = (a.num : ℚ) / (a.den : ℚ) := (Rat.num_div_den a).symm
    rw [e, div_mul_eq_mul_div, le_div_iff₀ hdpos]
    nlinarith
  set N := ⌊a * (10 : ℚ) ^ K⌋₊ with hN
  have hN1 : 1 ≤ N := by
    rw [hN]
    exact Nat.le_floor (by exact_mod_cast hge1)
  have hNle : (N : ℚ) ≤ a * (10 : ℚ) ^ K := Nat.floor_le (by positivity)
  have hNlt : a * (10 : ℚ) ^ K < (N : ℚ) + 1 := Nat.lt_floor_add_one _
  obtain ⟨hd1, hd2, hd3⟩ := digitCount_spec N
  have hd3' := hd3 hN1
  set d := digitCount N with hd
  have hX : decimalExponent a = (d : Int) - 1 - (K : Int) := by
    unfold decimalExponent
    rw [← hK, hsc]
  have hlow : ((10 : ℚ) ^ (d - 1) : ℚ) ≤ (N : ℚ) := by exact_mod_cast hd3'
  have hupp : (N : ℚ) + 1 ≤ (10 : ℚ) ^ d := by exact_mod_cast hd2
  rw [hX]
  constructor
  · have e1 : ((d : Int) - 1 - (K : Int)) = ((d - 1 : Nat) : Int) - (K : Int) := by omega
    rw [e1, zpow_sub₀ (by norm_num), zpow_natCast, zpow_natCast, div_le_iff₀ h10]
    exact le_trans hlow hNle
  · have e2 : ((d : Int) - 1 - (K : Int) + 1) = (d : Int) - (K : Int) := by ring
    rw [e2, zpow_sub₀ (by norm_num), zpow_natCast, zpow_natCast, lt_div_iff₀ h10]
    exact lt_of_lt_of_le hNlt hupp

theorem mantissa_value (m k : Nat) (h2 : m < 1000000) :
    ((digitsValue ((mantissaDigits m).take k ++ stripZeros ((mantissaDigits m).drop k)) : Nat) : ℚ) /
      ((10 ^ (stripZeros ((mantissaDigits m).drop k)).length : Nat) : ℚ) =
    (m : ℚ) / ((10 ^ (6 - k) : Nat) : ℚ) := by
  obtain ⟨j, hj⟩ := stripZeros_spec ((mantissaDigits m).drop k)
  set fr := stripZeros ((mantissaDigits m).drop k) with hfr
  have hlen : fr.length + j = 6 - k := by
    have := congrArg List.length hj
    simp only [List.length_drop, List.length_append, List.length_replicate,
      mantissaDigits_length] at this
    omega
  have hds : mantissaDigits m = ((mantissaDigits m).take k ++ fr) ++ List.replicate j '0' := by
    rw [List.append_assoc, ← hj, List.take_append_drop]
  have hv : m = digitsValue ((mantissaDigits m).take k ++ fr) * 10 ^ j := by
    have := congrArg digitsValue hds
    rw [digitsValue_mantissaDigits m h2, digitsValue_append, digitsValue_replicate_zero,
      List.length_replicate] at this
    omega
  have hp1 : ((10 ^ fr.length : Nat) : ℚ) ≠ 0 := by positivity
  have hp2 : ((10 ^ (6 - k) : Nat) : ℚ) ≠ 0 := by positivity
  rw [div_eq_div_iff hp1 hp2, ← hlen]
  conv_rhs => rw [hv]
  push_cast
  ring

theorem take_ne_nil (m k : Nat) (hk : 1 ≤ k) : (mantissaDigits m).take k ≠ [] := by
  intro h
  have := congrArg List.length h
  simp [mantissaDigits_length] at this
  omega

theorem take_isDigit (m k : Nat) : ∀ c ∈ (mantissaDigits m).take k, isDigit c = true :=
  fun c hc => mantissaDigits_isDigit m c (List.mem_of_mem_take hc)

theorem strip_drop_isDigit (m k : Nat) :
    ∀ c ∈ stripZeros ((mantissaDigits m).drop k), isDigit c = true :=
  fun c hc => mantissaDigits_isDigit m c (List.mem_of_mem_drop (mem_stripZeros _ _ hc))

theorem stripZeros_mantissa_ne_nil (m : Nat) (h1 : 100000 ≤ m) (h2 : m < 1000000) :
    stripZeros (mantissaDigits m) ≠ [] := by
  intro hnil
  have hv := mantissa_value m 0 h2
  simp only [List.take_zero, List.drop_zero, List.nil_append, hnil] at hv
  have hz : digitsValue [] = 0 := rfl
  rw [hz] at hv
  have hm : (100000 : ℚ) ≤ (m : ℚ) := by exact_mod_cast h1
  norm_num at hv
  linarith

/-- The text of format `g` for a positive number reads back as its six digits times the
power of ten of its exponent, in decimal form and in exponent form. -/
theorem unsignedValue_formatPositive (a : ℚ) (m : Nat) (x : Int) (hs : sixDigits a = (m, x))
    (h1 : 100000 ≤ m) (h2 : m < 1000000) :
    unsignedValue (formatPositive a) = some ((m : ℚ) * (10 : ℚ) ^ (x - 5)) := by
  unfold formatPositive
  simp only [hs]
  by_cases hfix : -4 ≤ x ∧ x < 6
  · simp only [hfix, and_self, if_true]
    by_cases hx0 : 0 ≤ x
    · simp only [hx0, if_true]
      have hk1 : 1 ≤ x.toNat + 1 := by omega
      have hk6 : x.toNat + 1 ≤ 6 := by omega
      rw [unsignedValue_plain _ _ (take_isDigit m _) (strip_drop_isDigit m _)
        (take_ne_nil m _ hk1), mantissa_value m _ h2]
      congr 1
      have e : x - 5 = -((6 - (x.toNat + 1) : Nat) : Int) := by omega
      rw [e, zpow_neg, zpow_natCast, div_eq_mul_inv]
      push_cast
      rfl
    · simp only [hx0, if_false]
      have hsn := stripZeros_mantissa_ne_nil m h1 h2
      have hfr : ∀ c ∈ List.replicate ((-x).toNat - 1) '0' ++ stripZeros (mantissaDigits m),
          isDigit c = true := by
        intro c hc
        rcases List.mem_append.1 hc with h | h
        · rw [(List.mem_replicate.1 h).2]; rfl
        · exact mantissaDigits_isDigit m c (mem_stripZeros _ _ h)
      have h := unsignedValue_plain ['0']
        (List.replicate ((-x).toNat - 1) '0' ++ stripZeros (mantissaDigits m))
        (by intro c hc; rw [List.mem_singleton.1 hc]; rfl) hfr (by simp)
      have htxt : withPoint ['0']
          (List.replicate ((-x).toNat - 1) '0' ++ stripZeros (mantissaDigits m)) =
          '0' :: '.' :: (List.replicate ((-x).toNat - 1) '0' ++ stripZeros (mantissaDigits m)) := by
        unfold withPoint
        have : (List.replicate ((-x).toNat - 1) '0' ++ stripZeros (mantissaDigits m)).isEmpty
            = false := by
          cases hs : stripZeros (mantissaDigits m) with
          | nil => exact absurd hs hsn
          | cons a b => simp
        simp [this]
      rw [htxt] at h
      rw [h]
      have hv := mantissa_value m 0 h2
      simp only [List.take_zero, List.drop_zero, List.nil_append] at hv
      have hdv : digitsValue (['0'] ++
          (List.replicate ((-x).toNat - 1) '0' ++ stripZeros (mantissaDigits m))) =
          digitsValue (stripZeros (mantissaDigits m)) := by
        rw [← List.append_assoc, digitsValue_append]
        have : digitsValue (['0'] ++ List.replicate ((-x).toNat - 1) '0') = 0 :=
          digitsValue_replicate_zero ((-x).toNat - 1 + 1)
        rw [this]
        simp
      rw [hdv]
      congr 1
      rw [List.length_append, List.length_replicate, Nat.add_comm, pow_add, Nat.cast_mul,
        ← div_div, hv]
      have e : x - 5 = -(((6 - 0 : Nat) : Int) + (((-x).toNat - 1 : Nat) : Int)) := by omega
      rw [e, zpow_neg, zpow_add₀ (by norm_num), zpow_natCast, zpow_natCast, div_div,
        div_eq_mul_inv]
      push_cast
      rfl
  · simp only [hfix, if_false]
    have ht : exponentText x = 'e' :: (exponentText x).tail := rfl
    rw [ht, unsignedValue_exponent _ _ _ (take_isDigit m _) (strip_drop_isDigit m _)
      (take_ne_nil m _ (le_refl 1)), exponentValue_exponentText, mantissa_value m 1 h2]
    simp only [Option.map_some']
    congr 1
    rw [scale10_eq]
    have e : x - 5 = -(5 : Int) + x := by ring
    rw [e, zpow_add₀ (by norm_num), div_eq_mul_inv]
    norm_num
    ring


theorem numberChar_of_isDigit (c : Char) (h : isDigit c = true) : numberChar c = true := by
  simp [numberChar, h]

theorem numberChar_facts (c : Char) (h : numberChar c = true) :
    isSpace c = false ∧ c ≠ ':' ∧ c ≠ '#' := by
  unfold numberChar at h
  simp only [Bool.or_eq_true, beq_iff_eq] at h
  rcases h with (((h | h) | h) | h) | h
  · unfold isDigit at h
    simp only [Bool.and_eq_true, decide_eq_true_eq] at h
    refine ⟨?_, ?_, ?_⟩
    · unfold isSpace
      simp
      omega
    · intro hc
      rw [hc] at h
      revert h
      decide
    · intro hc
      rw [hc] at h
      revert h
      decide
  all_goals
    subst h
    exact ⟨by decide, by decide, by decide⟩

theorem mem_withPoint (whole frac : List Char) (c : Char) (h : c ∈ withPoint whole frac) :
    c ∈ whole ∨ c = '.' ∨ c ∈ frac := by
  unfold withPoint at h
  split at h
  · exact Or.inl h
  · rcases List.mem_append.1 h with h1 | h1
    · exact Or.inl h1
    · rcases List.mem_cons.1 h1 with h2 | h2
      · exact Or.inr (Or.inl h2)
      · exact Or.inr (Or.inr h2)

theorem withPoint_chars (whole frac : List Char) (hw : ∀ c ∈ whole, isDigit c = true)
    (hf : ∀ c ∈ frac, isDigit c = true) : ∀ c ∈ withPoint whole frac, numberChar c = true := by
  intro c hc
  rcases mem_withPoint whole frac c hc with h | h | h
  · exact numberChar_of_isDigit c (hw c h)
  · rw [h]; rfl
  · exact numberChar_of_isDigit c (hf c h)

theorem exponentText_chars (x : Int) : ∀ c ∈ exponentText x, numberChar c = true := by
  intro c hc
  unfold exponentText at hc
  rcases List.mem_cons.1 hc with h | h
  · rw [h]; rfl
  · rcases List.mem_cons.1 h with h | h
    · rw [h]; split <;> rfl
    · split at h
      · rcases List.mem_cons.1 h with h | h
        · rw [h]; rfl
        · rw [List.mem_singleton.1 h]; exact numberChar_of_isDigit _ (isDigit_digitChar _)
      · exact numberChar_of_isDigit _ (natDigits_isDigit _ c h)

theorem formatPositive_chars (a : ℚ) : ∀ c ∈ formatPositive a, numberChar c = true := by
  intro c hc
  unfold formatPositive at hc
  simp only at hc
  split at hc
  · split at hc
    · exact withPoint_chars _ _ (take_isDigit _ _) (strip_drop_isDigit _ _) c hc
    · rcases List.mem_cons.1 hc with h | h
      · rw [h]; rfl
      · rcases List.mem_cons.1 h with h | h
        · rw [h]; rfl
        · rcases List.mem_append.1 h with h | h
          · rw [(List.mem_replicate.1 h).2]; rfl
          · exact numberChar_of_isDigit _
              (mantissaDigits_isDigit _ c (mem_stripZeros _ _ h))
  · rcases List.mem_append.1 hc with h | h
    · exact withPoint_chars _ _ (take_isDigit _ _) (strip_drop_isDigit _ _) c h
    · exact exponentText_chars _ c h

theorem formatDouble_chars (x : ℚ) : ∀ c ∈ formatDouble x, numberChar c = true := by
  intro c hc
  unfold formatDouble at hc
  split at hc
  · rw [List.mem_singleton.1 hc]; rfl
  · split at hc
    · rcases List.mem_cons.1 hc with h | h
      · rw [h]; rfl
      · exact formatPositive_chars _ c h
    · exact formatPositive_chars _ c hc

theorem dropWhile_of_none (p : Char → Bool) (l : List Char) (h : ∀ c ∈ l, p c = false) :
    l.dropWhile p = l := by
  cases l with
  | nil => rfl
  | cons a t => simp [List.dropWhile_cons, h a (List.mem_cons_self a t)]

theorem trimmed_of_no_space (s : List Char) (h : ∀ c ∈ s, isSpace c = false) :
    trimmed s = s := by
  unfold trimmed
  rw [dropWhile_of_none isSpace s h, dropWhile_of_none isSpace s.reverse (by
    intro c hc; exact h c (List.mem_reverse.1 hc)), List.reverse_reverse]

theorem withPoint_head (whole frac : List Char) (c : Char) (t : List Char)
    (h : whole = c :: t) : ∃ t2, withPoint whole frac = c :: t2 := by
  unfold withPoint
  split
  · exact ⟨t, h⟩
  · exact ⟨t ++ '.' :: frac, by rw [h]; rfl⟩

theorem formatPositive_head (a : ℚ) :
    ∃ c t, formatPositive a = c :: t ∧ isDigit c = true := by
  unfold formatPositive
  simp only
  split
  · split
    · obtain ⟨t2, h2⟩ := withPoint_head
        ((mantissaDigits (sixDigits a).1).take ((sixDigits a).2.toNat + 1))
        (stripZeros ((mantissaDigits (sixDigits a).1).drop ((sixDigits a).2.toNat + 1)))
        (digitChar ((sixDigits a).1 / 100000)) _ rfl
      exact ⟨_, _, h2, isDigit_digitChar _⟩
    · exact ⟨_, _, rfl, rfl⟩
  · obtain ⟨t2, h2⟩ := withPoint_head
      ((mantissaDigits (sixDigits a).1).take 1)
      (stripZeros ((mantissaDigits (sixDigits a).1).drop 1))
      (digitChar ((sixDigits a).1 / 100000)) _ rfl
    exact ⟨_, _, by rw [h2]; rfl, isDigit_digitChar _⟩

theorem signedValue_of_digit_head (c : Char) (t : List Char) (h : isDigit c = true) :
    signedValue (c :: t) = unsignedValue (c :: t) := by
  unfold signedValue
  split
  · next h1 => cases h1; exact absurd h (by decide)
  · next h1 => cases h1; exact absurd h (by decide)
  · rfl

/-- The six digits of a positive number spell a number from 100000 to 999999. -/
theorem sixDigits_range (a : ℚ) (ha : 0 < a) :
    100000 ≤ (sixDigits a).1 ∧ (sixDigits a).1 < 1000000 := by
  obtain ⟨s1, s2⟩ := decimalExponent_spec a ha
  set x := decimalExponent a with hx
  have hp : (0 : ℚ) < (10 : ℚ) ^ (5 - x) := by positivity
  have hsc : scale10 a (5 - x) = a * (10 : ℚ) ^ (5 - x) := scale10_eq _ _
  have e1 : (10 : ℚ) ^ x * (10 : ℚ) ^ (5 - x) = 100000 := by
    rw [← zpow_add₀ (by norm_num)]
    have : x + (5 - x) = 5 := by ring
    rw [this]
    norm_num
  have e2 : (10 : ℚ) ^ (x + 1) * (10 : ℚ) ^ (5 - x) = 1000000 := by
    rw [← zpow_add₀ (by norm_num)]
    have : x + 1 + (5 - x) = 6 := by ring
    rw [this]
    norm_num
  have l1 : (100000 : ℚ) ≤ a * (10 : ℚ) ^ (5 - x) := by
    rw [← e1]
    exact mul_le_mul_of_nonneg_right s1 hp.le
  have l2 : a * (10 : ℚ) ^ (5 - x) < 1000000 := by
    rw [← e2]
    exact mul_lt_mul_of_pos_right s2 hp
  have r1 : (100000 : Int) ≤ round (a * (10 : ℚ) ^ (5 - x)) := by
    rw [round_eq]
    apply Int.le_floor.2
    push_cast
    linarith
  have r2 : round (a * (10 : ℚ) ^ (5 - x)) ≤ (1000000 : Int) := by
    rw [round_eq]
    have : ⌊a * (10 : ℚ) ^ (5 - x) + 1 / 2⌋ < (1000000 : Int) + 1 := by
      apply Int.floor_lt.2
      push_cast
      linarith
    omega
  unfold sixDigits
  simp only [← hx, hsc]
  split
  · exact ⟨le_refl _, show (100000 : Nat) < 1000000 by decide⟩
  · next hne =>
    constructor
    · show 100000 ≤ (round (a * (10 : ℚ) ^ (5 - x))).toNat
      omega
    · show (round (a * (10 : ℚ) ^ (5 - x))).toNat < 1000000
      omega

theorem signedValue_formatDouble (x : ℚ) :
    signedValue (formatDouble x) = some (sixDigitValue x) := by
  unfold formatDouble sixDigitValue
  by_cases hx : x = 0
  · subst hx
    simp only [if_true]
    decide!
  · simp only [hx, if_false]
    by_cases hneg : x < 0
    · simp only [hneg, if_true]
      have hpos : 0 < -x := by linarith
      obtain ⟨h1, h2⟩ := sixDigits_range (-x) hpos
      show (unsignedValue (formatPositive (-x))).map (fun v => -v) = _
      rw [unsignedValue_formatPositive (-x) _ _ rfl h1 h2]
      rfl
    · simp only [hneg, if_false]
      have hpos : 0 < x := lt_of_le_of_ne (le_of_not_lt hneg) (Ne.symm hx)
      obtain ⟨h1, h2⟩ := sixDigits_range x hpos
      obtain ⟨c, t, hct, hd⟩ := formatPositive_head x
      rw [hct, signedValue_of_digit_head c t hd, ← hct]
      exact unsignedValue_formatPositive x _ _ rfl h1 h2

/-- Reading back the text that `QString::arg` writes for a number gives the number
rounded to six significant digits. -/
theorem toDouble_formatDouble (x : ℚ) : toDouble (formatDouble x) = sixDigitValue x := by
  unfold toDouble
  rw [trimmed_of_no_space _ (fun c hc => (numberChar_facts c (formatDouble_chars x c hc)).1),
    signedValue_formatDouble x]
  rfl

theorem fields_of_encodeHref (binId : List Char) (start stop : ℚ) (h1 : '#' ∉ binId) :
    startField (encodeHref binId start stop) = formatDouble start ∧
    endField (encodeHref binId start stop) = formatDouble stop := by
  have h2 : ':' ∉ formatDouble start := fun hm =>
    (numberChar_facts _ (formatDouble_chars start _ hm)).2.1 rfl
  have h3 : ':' ∉ formatDouble stop := fun hm =>
    (numberChar_facts _ (formatDouble_chars stop _ hm)).2.1 rfl
  unfold startField endField encodeHref
  rw [sectionFrom_after_hash _ _ h1]
  unfold sectionAt
  rw [splitFields_append_sep _ _ _ h2, splitFields_of_not_mem _ _ h3]
  simp

/-- The anchor that the decoding chain reads from the href of a word: the clip id and
the two times rounded to six significant digits. For times of at most six
significant digits it is the href that `sentenceCells` keeps. -/
theorem anchorOf_encodeHref (binId : String) (s e : ℚ) (h : '#' ∉ binId.toList) :
    anchorOf (String.mk (encodeHref binId.toList s e)) =
      some ⟨binId, sixDigitValue s, sixDigitValue e⟩ := by
  have ht : (String.mk (encodeHref binId.toList s e)).toList = encodeHref binId.toList s e := rfl
  have hne : (String.mk (encodeHref binId.toList s e)).isEmpty = false := by
    rw [Bool.eq_false_iff]
    intro hc
    have := congrArg String.toList ((String.isEmpty_iff _).1 hc)
    rw [ht] at this
    simp [encodeHref] at this
  have e1 := fields_of_encodeHref binId.toList s e h
  have e0 : sectionAt '#' 0 (encodeHref binId.toList s e) = binId.toList := by
    unfold sectionAt encodeHref
    rw [splitFields_append_sep _ _ _ h]
    simp
  unfold anchorOf
  simp only [hne, Bool.false_eq_true, if_false, decodeHref, ht, e0, e1.1, e1.2,
    toDouble_formatDouble]
  rfl

/-- C23 (as stated, fails on the code): when the recognizer exits normally with the
exit code 1 and the transcript is empty, `slotProcessSpeechStatus` shows the info
message "No speech detected." and no warning. -/
theorem slotProcessSpeechStatus_nonzero_exit_is_info :
    (slotProcessSpeechStatus 1 ExitStatus.normalExit "Traceback" freshRun).2 =
      { text := "No speech detected.", severity := MessageType.information, showLog := true } ∧
    (slotProcessSpeechStatus 1 ExitStatus.normalExit "Traceback" freshRun).2.severity ≠
      MessageType.warning := by
  decide!

/-- C23 (amended): `slotProcessSpeechStatus` never reads the exit code. It raises a
warning for every exit with the status `CrashExit`; for every exit with the status
`NormalExit`, whatever the exit code, it raises the info message "No speech
detected." when the transcript is empty and the positive message "finished"
otherwise. -/
theorem slotProcessSpeechStatus_severity (exitCode : Int) (status : ExitStatus)
    (errorString : String) (w : TextBasedEdit) :
    slotProcessSpeechStatus exitCode status errorString w =
      slotProcessSpeechStatus 0 status errorString w ∧
    (slotProcessSpeechStatus exitCode status errorString w).2.severity =
      (match status with
       | ExitStatus.crashExit => MessageType.warning
       | ExitStatus.normalExit =>
         if w.visualEditor.doc.isEmpty then MessageType.information
         else MessageType.positive) := by
  refine ⟨rfl, ?_⟩
  cases status with
  | crashExit => simp [slotProcessSpeechStatus]
  | normalExit =>
    unfold slotProcessSpeechStatus
    by_cases h : w.visualEditor.doc.isEmpty = true <;> simp [h]

/-! ## Cut algebra: further cases -/

theorem processedZones_of_enclosing_cut (zs ze cs ce : Int) (h1 : cs ≤ zs) (h2 : ze ≤ ce) :
    processedZones [⟨cs, ce⟩] [⟨zs, ze⟩] = [⟨zs, ze⟩] := by
  have e1 : ¬ (zs < cs) := by omega
  have e2 : ¬ (ce < ze) := by omega
  simp [processedZones, zoneStep, cutStep, removeAll_nil, e1, e2]

/-- C24 (fails on the code): a cut that encloses the source. With the source
interval (10, 20) and the single cut (0, 30), `processedZones` returns the source
[(10, 20)] and not the empty list. -/
theorem processedZones_enclosing_cut_keeps_source :
    (0 : Int) ≤ 10 ∧ (20 : Int) ≤ 30 ∧
    processedZones [⟨0, 30⟩] [⟨10, 20⟩] = [⟨10, 20⟩] ∧
    processedZones [⟨0, 30⟩] [⟨10, 20⟩] ≠ [] := by
  decide

/-- C25 (fails on the code): no zero-length interval. With the source interval
(0, 100) and the single cut (50, 100), both of positive length, the cut ending
exactly at the end of the source, `processedZones` returns [(0, 50), (100, 100)]:
the second interval has length zero. -/
theorem processedZones_returns_zero_length :
    processedZones [⟨50, 100⟩] [⟨0, 100⟩] = [⟨0, 50⟩, ⟨100, 100⟩] ∧
    ¬ (∀ o ∈ processedZones [⟨50, 100⟩] [⟨0, 100⟩], o.x < o.y) := by
  decide

/-! ## Export zones: order of the selection -/

/-- C26 (fails on the code): independence of the click order. With the zones of
scenario 5 at 25 frames per second and no cuts, the selection [4, 1] (block 4
clicked first) gives [(25, 50)] and the selection [1, 4], the same set of blocks,
gives [(25, 50), (125, 150)]. -/
theorem getInsertZones_depends_on_click_order :
    List.Perm [(4 : Int), 1] [1, 4] ∧
    getInsertZones (secondsToFrames 25) none scenarioZones [] [4, 1] = some [⟨25, 50⟩] ∧
    getInsertZones (secondsToFrames 25) none scenarioZones [] [1, 4] =
      some [⟨25, 50⟩, ⟨125, 150⟩] ∧
    getInsertZones (secondsToFrames 25) none scenarioZones [] [4, 1] ≠
      getInsertZones (secondsToFrames 25) none scenarioZones [] [1, 4] := by
  refine ⟨List.Perm.swap _ _ _, by decide!, by decide!, by decide!⟩

/-! ## Hover: `checkHoverBlock` -/

/-- C27 (fails on the code): the hovered block. For one block whose rectangle,
translated by a scroll offset of 100, has left edge 4, top -96 and height 200, the
cursor Y coordinate 2 lies within the vertical bounds of the block
(-96 ≤ 2 < 103) and `checkHoverBlock` sets the hovered block to -1. For one block
with left edge 0, top 50 and height 20, the Y coordinate 10 lies above the block
and `checkHoverBlock` sets the hovered block to 0. -/
theorem checkHoverBlock_compares_with_left_edge :
    ((⟨4, -96, 300, 200⟩ : QRect).y ≤ 2 ∧ 2 < (⟨4, -96, 300, 200⟩ : QRect).bottom) ∧
    (checkHoverBlock [⟨4, -96, 300, 200⟩] 2 scenarioEditor).hoveredBlock = -1 ∧
    ¬ ((⟨0, 50, 300, 20⟩ : QRect).y ≤ 10) ∧
    (checkHoverBlock [⟨0, 50, 300, 20⟩] 10 scenarioEditor).hoveredBlock = 0 := by
  decide

/-! ## The block selection as a state -/

/-- C28 (fails on the code): validity of the selected indices. From the five-block
transcript, a plain click on block 1 followed by `cleanup` leaves the block
selection [1] with an empty `speechZones`, and `getInsertZones` then reads
`speechZones.at(1)` out of range. -/
theorem cleanup_keeps_block_selection :
    ([SelectionEvent.hover 1, SelectionEvent.click plainClick, SelectionEvent.clean].foldl
      applyEvent scenarioEditor).selectedBlocks = [1] ∧
    ([SelectionEvent.hover 1, SelectionEvent.click plainClick, SelectionEvent.clean].foldl
      applyEvent scenarioEditor).speechZones = [] ∧
    getInsertZones (secondsToFrames 25) none
      ([SelectionEvent.hover 1, SelectionEvent.click plainClick, SelectionEvent.clean].foldl
        applyEvent scenarioEditor).speechZones
      ([SelectionEvent.hover 1, SelectionEvent.click plainClick, SelectionEvent.clean].foldl
        applyEvent scenarioEditor).cutZones
      ([SelectionEvent.hover 1, SelectionEvent.click plainClick, SelectionEvent.clean].foldl
        applyEvent scenarioEditor).selectedBlocks = none := by
  refine ⟨by decide!, by decide!, by decide!⟩

/-- C29: with no cut intervals `processedZones` is the identity: for every list of
source intervals it returns that list unchanged. -/
theorem processedZones_identity_without_cuts (sourceZones : List QPoint) :
    processedZones [] sourceZones = sourceZones :=
  processedZones_of_no_cut sourceZones

theorem nodup_foldl_addIfMissing (l sel : List Int) (h : sel.Nodup) :
    (l.foldl addIfMissing sel).Nodup := by
  induction l generalizing sel with
  | nil => exact h
  | cons a rest ih =>
    apply ih
    unfold addIfMissing
    by_cases ha : sel.contains a = true
    · simp only [ha, if_true]; exact h
    · have hn : a ∉ sel := by simpa using ha
      simp only [ha, if_false, Bool.false_eq_true]
      exact List.Nodup.append h (List.nodup_singleton a) (by simpa using hn)

theorem blockClicked_nodup (m : Modifiers) (ed : Editor) (h : ed.selectedBlocks.Nodup) :
    (blockClicked m ed).selectedBlocks.Nodup := by
  unfold blockClicked
  split
  · simp only
    split
    · split
      · exact List.Nodup.filter _ h
      · exact List.nodup_singleton _
    · next hn =>
      have hnot : ed.hoveredBlock ∉ ed.selectedBlocks := by simpa using hn
      split
      · exact List.Nodup.append h (List.nodup_singleton _) (by simpa using hnot)
      · split
        · split
          · exact nodup_foldl_addIfMissing _ _ h
          · exact List.nodup_singleton _
        · exact List.nodup_singleton _
  · exact h

theorem selectedBlocks_after_release (ed : Editor) :
    (mouseReleaseEvent ed).selectedBlocks = [] := by
  unfold mouseReleaseEvent
  by_cases hsel : ed.textCursor.selectionIsEmpty = true
  · by_cases hb : ed.selectedBlocks.isEmpty = true
    · have : ed.selectedBlocks = [] := List.isEmpty_iff.mp hb
      simp [hsel, this]
    · simp [hsel, hb]
  · by_cases hb : ed.selectedBlocks.isEmpty = true
    · have : ed.selectedBlocks = [] := List.isEmpty_iff.mp hb
      simp [hsel, this]
    · simp [hsel, hb]

theorem applyEvent_nodup (ed : Editor) (ev : SelectionEvent) (h : ed.selectedBlocks.Nodup) :
    (applyEvent ed ev).selectedBlocks.Nodup := by
  cases ev with
  | hover i => exact h
  | click m => exact blockClicked_nodup m ed h
  | release =>
    show (mouseReleaseEvent ed).selectedBlocks.Nodup
    rw [selectedBlocks_after_release]
    exact List.nodup_nil
  | rebuild => exact List.nodup_nil
  | clean => exact h

theorem foldl_applyEvent_nodup (events : List SelectionEvent) (ed : Editor)
    (h : ed.selectedBlocks.Nodup) : (events.foldl applyEvent ed).selectedBlocks.Nodup := by
  induction events generalizing ed with
  | nil => exact h
  | cons ev rest ih => exact ih _ (applyEvent_nodup ed ev h)

/-- C30: in every state reached from an empty block selection through any sequence
of hovers, clicks with any modifiers (`blockClicked`), `mouseReleaseEvent`,
`rebuildZones` and `cleanup`, no block index occurs twice in the block selection. -/
theorem selectedBlocks_nodup_of_reachable (events : List SelectionEvent) (ed : Editor)
    (h : ed.selectedBlocks = []) : (events.foldl applyEvent ed).selectedBlocks.Nodup :=
  foldl_applyEvent_nodup events ed (h ▸ List.nodup_nil)

/-- C30 at a concrete run on the five-block transcript: click 3, Shift-click 1,
Ctrl-click 2, which removes it, Ctrl-click 4. -/
theorem selectedBlocks_nodup_of_reachable_witness :
    ([SelectionEvent.hover 3, SelectionEvent.click plainClick, SelectionEvent.hover 1,
      SelectionEvent.click shiftClick, SelectionEvent.hover 2,
      SelectionEvent.click controlClick, SelectionEvent.hover 4,
      SelectionEvent.click controlClick].foldl applyEvent scenarioEditor).selectedBlocks.Nodup :=
  selectedBlocks_nodup_of_reachable _ scenarioEditor rfl

/-! ## Malformed hrefs -/

/-! ### A block of one word

`doc` is a document of word characters only, all under the anchor `a`. -/

theorem wordUnder_plain (w : List Char) (a : Option Href) (hw : ∀ ch ∈ w, wordChar ch = true) :
    ∀ c ∈ wordUnder w a,
      c.isSeparator = false ∧ c.whiteSpace = false ∧ c.atWordSeparator = false := by
  intro c hc
  unfold wordUnder at hc
  obtain ⟨ch, hch, rfl⟩ := List.mem_map.1 hc
  have h := hw ch hch
  unfold wordChar at h
  simp only [Bool.and_eq_true, Bool.not_eq_true'] at h
  exact ⟨h.1.1, h.1.2, h.2⟩

theorem wordUnder_href (w : List Char) (a : Option Href) : ∀ c ∈ wordUnder w a, c.href = a := by
  intro c hc
  unfold wordUnder at hc
  obtain ⟨ch, _, rfl⟩ := List.mem_map.1 hc
  rfl

theorem oneWord_blockStart (doc : List Cell) (hD : ∀ c ∈ doc, c.isSeparator = false)
    (p : Nat) (hp : p ≤ doc.length) : blockStart doc p = 0 := by
  unfold blockStart
  have h : (doc.take p).reverse.takeWhile (fun c => !c.isSeparator) = (doc.take p).reverse := by
    rw [List.takeWhile_eq_self_iff]
    intro c hc
    have := hD c (List.mem_of_mem_take (List.mem_reverse.1 hc))
    simp [this]
  rw [h, List.length_reverse, List.length_take]
  omega

theorem oneWord_blockEnd (doc : List Cell) (hD : ∀ c ∈ doc, c.isSeparator = false)
    (p : Nat) (hp : p ≤ doc.length) : blockEnd doc p = doc.length := by
  unfold blockEnd
  have h : (doc.drop p).takeWhile (fun c => !c.isSeparator) = doc.drop p := by
    rw [List.takeWhile_eq_self_iff]
    intro c hc
    have := hD c (List.mem_of_mem_drop hc)
    simp [this]
  rw [h, List.length_drop]
  omega

theorem oneWord_blockText (doc : List Cell) (hD : ∀ c ∈ doc, c.isSeparator = false)
    (p : Nat) (hp : p ≤ doc.length) : blockText doc p = doc := by
  unfold blockText
  rw [oneWord_blockStart doc hD p hp, oneWord_blockEnd doc hD p hp]
  simp

theorem skipBack_none (f : Cell → Bool) (blk : List Cell) (hf : ∀ c ∈ blk, f c = false)
    (pos : Nat) : skipBack f blk pos = pos := by
  unfold skipBack
  have h : (blk.take pos).reverse.takeWhile f = [] := by
    rw [List.takeWhile_eq_nil_iff]
    intro hl hx
    have hm : (blk.take pos).reverse.get ⟨0, hl⟩ ∈ blk :=
      List.mem_of_mem_take (List.mem_reverse.1 (List.get_mem _ _ _))
    rw [hf _ hm] at hx
    exact absurd hx (by decide)
  rw [h]
  rfl

theorem skipBack_all (f : Cell → Bool) (blk : List Cell) (hf : ∀ c ∈ blk, f c = true)
    (pos : Nat) (hp : pos ≤ blk.length) : skipBack f blk pos = 0 := by
  unfold skipBack
  have h : (blk.take pos).reverse.takeWhile f = (blk.take pos).reverse := by
    rw [List.takeWhile_eq_self_iff]
    intro c hc
    exact hf c (List.mem_of_mem_take (List.mem_reverse.1 hc))
  rw [h, List.length_reverse, List.length_take]
  omega

theorem skipAhead_all (f : Cell → Bool) (blk : List Cell) (hf : ∀ c ∈ blk, f c = true)
    (pos : Nat) (hp : pos ≤ blk.length) : skipAhead f blk pos = blk.length := by
  unfold skipAhead
  have h : (blk.drop pos).takeWhile f = blk.drop pos := by
    rw [List.takeWhile_eq_self_iff]
    intro c hc
    exact hf c (List.mem_of_mem_drop hc)
  rw [h, List.length_drop]
  omega

theorem oneWord_previousWordPosition (doc : List Cell)
    (hD : ∀ c ∈ doc, c.isSeparator = false ∧ c.whiteSpace = false ∧ c.atWordSeparator = false)
    (p : Nat) (hp : p ≤ doc.length) : previousWordPosition doc p = 0 := by
  unfold previousWordPosition
  by_cases h0 : p = 0
  · simp [h0]
  · have hc : ¬ (p = 0 ∨ p > doc.length) := by omega
    simp only [hc, if_false, skipBack_none Cell.whiteSpace doc (fun c hc => (hD c hc).2.1) p]
    have hsep : ¬ (p > 0 ∧ (doc[p - 1]?.map Cell.atWordSeparator) = some true) := by
      intro h
      have hlt : p - 1 < doc.length := by omega
      rw [List.getElem?_eq_getElem hlt] at h
      have := (hD _ (List.getElem_mem hlt)).2.2
      simp [this] at h
    simp only [hsep, if_false]
    exact skipBack_all _ doc (fun c hc => by simp [(hD c hc).2.1, (hD c hc).2.2]) p hp

theorem oneWord_startOfWord (doc : List Cell)
    (hD : ∀ c ∈ doc, c.isSeparator = false ∧ c.whiteSpace = false ∧ c.atWordSeparator = false)
    (p : Nat) (hp : p ≤ doc.length) : startOfWord doc p = some 0 := by
  have hS : ∀ c ∈ doc, c.isSeparator = false := fun c hc => (hD c hc).1
  unfold startOfWord
  simp only [oneWord_blockStart doc hS p hp, oneWord_blockText doc hS p hp, Nat.sub_zero,
    Nat.zero_add]
  by_cases h0 : p = 0
  · simp [h0]
  · simp only [h0, if_false]
    have hsep : ¬ (p = doc.length ∧
        (doc[p - 1]?.map (fun c => c.whiteSpace || c.atWordSeparator)) = some true) := by
      intro h
      have hlt : p - 1 < doc.length := by omega
      rw [List.getElem?_eq_getElem hlt] at h
      have h1 := (hD _ (List.getElem_mem hlt)).2.1
      have h2 := (hD _ (List.getElem_mem hlt)).2.2
      simp [h1, h2] at h
    simp only [hsep, if_false]
    rw [oneWord_previousWordPosition doc hD _ (by split <;> omega)]

theorem oneWord_endOfWord (doc : List Cell)
    (hD : ∀ c ∈ doc, c.isSeparator = false ∧ c.whiteSpace = false ∧ c.atWordSeparator = false)
    (hne : 0 < doc.length) : endOfWord doc 0 = some doc.length := by
  have hS : ∀ c ∈ doc, c.isSeparator = false := fun c hc => (hD c hc).1
  unfold endOfWord
  simp only [oneWord_blockStart doc hS 0 (Nat.zero_le _), oneWord_blockText doc hS 0 (Nat.zero_le _),
    Nat.sub_zero, Nat.zero_add]
  have h1 : ¬ (0 ≥ doc.length) := by omega
  have hsep : ¬ ((doc[0]?.map Cell.atWordSeparator) = some true) := by
    intro h
    rw [List.getElem?_eq_getElem hne] at h
    have := (hD _ (List.getElem_mem hne)).2.2
    simp [this] at h
  simp only [h1, hsep, if_false]
  rw [skipAhead_all _ doc (fun c hc => by simp [(hD c hc).2.1, (hD c hc).2.2]) 0 (Nat.zero_le _)]

theorem oneWord_selectWord (doc : List Cell)
    (hD : ∀ c ∈ doc, c.isSeparator = false ∧ c.whiteSpace = false ∧ c.atWordSeparator = false)
    (hne : 0 < doc.length) (c : TextCursor) (hp : c.position ≤ doc.length) :
    TextCursor.selectWordUnderCursor doc c = ⟨0, doc.length⟩ := by
  unfold TextCursor.selectWordUnderCursor TextCursor.moveStartOfWord
  simp only [oneWord_startOfWord doc hD c.position hp]
  unfold TextCursor.moveEndOfWordKeepAnchor
  simp only [oneWord_endOfWord doc hD hne]

theorem seekForward_of_selection (doc : List Cell) (limit : Int) (n : Nat) (start : Int)
    (c : TextCursor) (h : c.selectionIsEmpty = false) :
    seekForward doc limit n start c = (start, c) := by
  cases n <;> simp [seekForward, h]

theorem seekBackward_of_selection (doc : List Cell) (start : Int) (n : Nat) (e : Int)
    (c : TextCursor) (h : c.selectionIsEmpty = false) :
    seekBackward doc start n e c = (e, c) := by
  cases n <;> simp [seekBackward, h]

theorem toDouble_of_not_number (s : List Char) (h : isNumber s = false) : toDouble s = 0 := by
  unfold isNumber at h
  rw [Bool.or_eq_false_iff] at h
  unfold toDouble
  cases hv : signedValue (trimmed s) with
  | none => rfl
  | some v => rw [hv] at h; exact absurd h.1 (by simp)

theorem rebuildZones_cutZones (ed : Editor) : (rebuildZones ed).cutZones = ed.cutZones := rfl

theorem setPosition_of_le (doc : List Cell) (c : TextCursor) (p : Nat) (hp : p ≤ doc.length) :
    TextCursor.setPosition doc c (p : Int) = ⟨p, p⟩ := by
  unfold TextCursor.setPosition characterCount
  have h1 : (0 : Int) ≤ (p : Int) ∧ (p : Int) < ((doc.length + 1 : Nat) : Int) := by
    constructor <;> omega
  rw [if_pos h1]
  simp

theorem selectionMiddle_of_word (n : Nat) :
    TextCursor.selectionMiddle ⟨0, n⟩ = ((n / 2 : Nat) : Int) := by
  unfold TextCursor.selectionMiddle TextCursor.selectionStart TextCursor.selectionEnd
  simp only [Nat.zero_min, Nat.zero_max]
  omega

theorem oneWord_anchorAt (doc : List Cell) (a : Option Href) (hA : ∀ c ∈ doc, c.href = a)
    (p : Nat) (hp : p < doc.length) : anchorAtCursor doc ⟨p, p⟩ = a := by
  unfold anchorAtCursor
  simp only [List.getElem?_eq_getElem hp]
  exact hA _ (List.getElem_mem hp)

theorem oneWord_rebuildBlock (doc : List Cell) (a : Option Href)
    (hD : ∀ c ∈ doc, c.isSeparator = false ∧ c.whiteSpace = false ∧ c.atWordSeparator = false)
    (hA : ∀ c ∈ doc, c.href = a) (hne : 0 < doc.length) (off : ℚ) :
    (rebuildBlock doc off (⟨0, 0⟩, [])).2 =
      if a.isSome then [(hrefStartSec a + off, hrefEndSec a + off)] else [] := by
  have hS : ∀ c ∈ doc, c.isSeparator = false := fun c hc => (hD c hc).1
  have hsel : (⟨0, doc.length⟩ : TextCursor).selectionIsEmpty = false := by
    unfold TextCursor.selectionIsEmpty
    simp
    omega
  have e1 : TextCursor.setPosition doc ⟨0, 0⟩ (((0 : Nat) : Int) + 1) = ⟨1, 1⟩ :=
    setPosition_of_le doc _ 1 (by omega)
  have e2 : TextCursor.setPosition doc ⟨0, doc.length⟩
      (TextCursor.selectionMiddle ⟨0, doc.length⟩) = ⟨doc.length / 2, doc.length / 2⟩ := by
    rw [selectionMiddle_of_word]
    exact setPosition_of_le doc _ _ (Nat.div_le_self _ _)
  have e3 : TextCursor.moveEndOfBlock doc ⟨doc.length / 2, doc.length / 2⟩ =
      ⟨doc.length, doc.length⟩ := by
    unfold TextCursor.moveEndOfBlock
    simp only [oneWord_blockEnd doc hS _ (Nat.div_le_self _ _)]
  have e4 : TextCursor.setPosition doc ⟨doc.length, doc.length⟩ (((doc.length : Nat) : Int) - 1) =
      ⟨doc.length - 1, doc.length - 1⟩ := by
    have : ((doc.length : Nat) : Int) - 1 = ((doc.length - 1 : Nat) : Int) := by omega
    rw [this]
    exact setPosition_of_le doc _ _ (by omega)
  have e5 : anchorAtCursor doc ⟨doc.length / 2, doc.length / 2⟩ = a :=
    oneWord_anchorAt doc a hA _ (Nat.div_lt_self hne (by decide))
  unfold rebuildBlock
  simp only [e1, oneWord_selectWord doc hD hne ⟨1, 1⟩ (by show 1 ≤ doc.length; omega),
    seekForward_of_selection _ _ _ _ _ hsel, e2, e3, e4,
    oneWord_selectWord doc hD hne ⟨doc.length - 1, doc.length - 1⟩
      (by show doc.length - 1 ≤ doc.length; omega),
    seekBackward_of_selection _ _ _ _ _ hsel, e5, and_self, List.nil_append]

theorem oneWord_blockCount (doc : List Cell) (hD : ∀ c ∈ doc, c.isSeparator = false) :
    blockCount doc = 1 := by
  unfold blockCount
  have : doc.filter Cell.isSeparator = [] := by
    rw [List.filter_eq_nil_iff]
    intro c hc
    simp [hD c hc]
  rw [this]
  rfl

theorem oneWord_rebuildZones (doc : List Cell) (a : Option Href)
    (hD : ∀ c ∈ doc, c.isSeparator = false ∧ c.whiteSpace = false ∧ c.atWordSeparator = false)
    (hA : ∀ c ∈ doc, c.href = a) (hne : 0 < doc.length) (off : ℚ) :
    (rebuildZones { editorWith doc 0 0 [] with clipOffset := off }).speechZones =
      if a.isSome then [(hrefStartSec a + off, hrefEndSec a + off)] else [] := by
  have hb : List.range (blockCount doc) = [0] := by
    rw [oneWord_blockCount doc (fun c hc => (hD c hc).1)]
    rfl
  unfold rebuildZones
  simp only [editorWith, hb, List.foldl_cons, List.foldl_nil]
  exact oneWord_rebuildBlock doc a hD hA hne off

theorem oneWord_deleteItem (doc : List Cell) (a : Option Href)
    (hD : ∀ c ∈ doc, c.isSeparator = false ∧ c.whiteSpace = false ∧ c.atWordSeparator = false)
    (hA : ∀ c ∈ doc, c.href = a) (hne : 0 < doc.length) (off : ℚ) (frames : ℚ → Int) :
    (deleteItem frames { editorWith doc 0 doc.length [] with clipOffset := off }).cutZones =
      if a.isSome ∧ hrefStartSec a + off < hrefEndSec a + off then
        [⟨frames (hrefStartSec a + off), frames (hrefEndSec a + off)⟩]
      else [] := by
  have hsel : (⟨0, doc.length⟩ : TextCursor).selectionIsEmpty = false := by
    unfold TextCursor.selectionIsEmpty
    simp
    omega
  have e1 : TextCursor.setPosition doc ⟨0, doc.length⟩ ((0 : Nat) : Int) = ⟨0, 0⟩ :=
    setPosition_of_le doc _ 0 (by omega)
  have e2 : TextCursor.setPosition doc ⟨0, doc.length⟩
      (TextCursor.selectionMiddle ⟨0, doc.length⟩) = ⟨doc.length / 2, doc.length / 2⟩ := by
    rw [selectionMiddle_of_word]
    exact setPosition_of_le doc _ _ (Nat.div_le_self _ _)
  have e3 : TextCursor.setPosition doc ⟨doc.length / 2, doc.length / 2⟩
      ((doc.length : Nat) : Int) = ⟨doc.length, doc.length⟩ :=
    setPosition_of_le doc _ _ (le_refl _)
  have e5 : anchorAtCursor doc ⟨doc.length / 2, doc.length / 2⟩ = a :=
    oneWord_anchorAt doc a hA _ (Nat.div_lt_self hne (by decide))
  have h02 : ((doc.length : Nat) : Int) > ((0 : Nat) : Int) := by omega
  unfold deleteItem
  rw [rebuildZones_cutZones]
  simp only [editorWith, TextCursor.selectionStart, TextCursor.selectionEnd, Nat.zero_min,
    Nat.zero_max, h02, if_true, e1, oneWord_selectWord doc hD hne ⟨0, 0⟩ (Nat.zero_le _),
    seekForward_of_selection _ _ _ _ _ hsel, e2, e5, e3,
    oneWord_selectWord doc hD hne ⟨doc.length, doc.length⟩ (le_refl _),
    seekBackward_of_selection _ _ _ _ _ hsel, and_self]
  by_cases ha : a.isSome = true
  · by_cases hlt : hrefStartSec a + off < hrefEndSec a + off
    · simp [ha, hlt, removeSelectedText]
    · simp [ha, hlt]
  · simp [ha]

theorem oneWord_probeAnchors (doc : List Cell) (a : Option Href)
    (hD : ∀ c ∈ doc, c.isSeparator = false ∧ c.whiteSpace = false ∧ c.atWordSeparator = false)
    (hA : ∀ c ∈ doc, c.href = a) (hne : 0 < doc.length) (start : Int) (e : Nat)
    (c0 : TextCursor) (hc0 : c0.position ≤ doc.length) (he : e ≤ doc.length) :
    probeAnchors doc start (e : Int) c0 = (a, a) := by
  have hsel : (⟨0, doc.length⟩ : TextCursor).selectionIsEmpty = false := by
    unfold TextCursor.selectionIsEmpty
    simp
    omega
  have e2 : TextCursor.setPosition doc ⟨0, doc.length⟩
      (TextCursor.selectionMiddle ⟨0, doc.length⟩) = ⟨doc.length / 2, doc.length / 2⟩ := by
    rw [selectionMiddle_of_word]
    exact setPosition_of_le doc _ _ (Nat.div_le_self _ _)
  have e3 : TextCursor.setPosition doc ⟨doc.length / 2, doc.length / 2⟩ (e : Int) = ⟨e, e⟩ :=
    setPosition_of_le doc _ _ he
  have e5 : anchorAtCursor doc ⟨doc.length / 2, doc.length / 2⟩ = a :=
    oneWord_anchorAt doc a hA _ (Nat.div_lt_self hne (by decide))
  unfold probeAnchors
  simp only [oneWord_selectWord doc hD hne c0 hc0, seekForward_of_selection _ _ _ _ _ hsel, e2,
    e3, oneWord_selectWord doc hD hne ⟨e, e⟩ he, seekBackward_of_selection _ _ _ _ _ hsel, e5]

theorem oneWord_textZone (doc : List Cell) (a : Option Href)
    (hD : ∀ c ∈ doc, c.isSeparator = false ∧ c.whiteSpace = false ∧ c.atWordSeparator = false)
    (hA : ∀ c ∈ doc, c.href = a) (hne : 0 < doc.length) (off : ℚ) (p q : Nat)
    (hp : p ≤ doc.length) (hq : q ≤ doc.length) :
    textZone { editorWith doc p q [] with clipOffset := off } =
      if a.isSome then some (hrefStartSec a + off, hrefEndSec a + off) else none := by
  unfold textZone
  simp only [editorWith]
  by_cases hs : (⟨p, q⟩ : TextCursor).selectionIsEmpty = true
  · simp only [hs, Bool.not_true, Bool.false_eq_true, if_false]
    have h1 : ((doc.length : Nat) : Int) - 1 = ((doc.length - 1 : Nat) : Int) := by omega
    rw [h1, oneWord_probeAnchors doc a hD hA hne 0 (doc.length - 1) ⟨0, 0⟩ (Nat.zero_le _)
      (Nat.sub_le _ _)]
    simp
  · have hs2 : (⟨p, q⟩ : TextCursor).selectionIsEmpty = false := by
      cases h : (⟨p, q⟩ : TextCursor).selectionIsEmpty
      · rfl
      · exact absurd h hs
    have hpq : p ≠ q := by
      intro h
      apply hs
      unfold TextCursor.selectionIsEmpty
      simp [h]
    simp only [hs2, Bool.not_false, if_true]
    have hst : (⟨p, q⟩ : TextCursor).selectionStart ≤ doc.length := by
      unfold TextCursor.selectionStart
      exact Nat.le_trans (Nat.min_le_left _ _) hp
    have hE : (⟨p, q⟩ : TextCursor).selectionEnd = max p q := rfl
    have hm1 : 1 ≤ max p q := by
      rcases Nat.lt_or_ge p q with h | h
      · exact Nat.le_trans (by omega) (Nat.le_max_right p q)
      · exact Nat.le_trans (by omega) (Nat.le_max_left p q)
    have hm2 : max p q ≤ doc.length := Nat.max_le.2 ⟨hp, hq⟩
    have hen : ((⟨p, q⟩ : TextCursor).selectionEnd : Int) - 1 =
        (((⟨p, q⟩ : TextCursor).selectionEnd - 1 : Nat) : Int) := by
      rw [hE]
      omega
    have hen2 : (⟨p, q⟩ : TextCursor).selectionEnd - 1 ≤ doc.length := by
      rw [hE]
      omega
    rw [hen, setPosition_of_le doc _ _ hst,
      oneWord_probeAnchors doc a hD hA hne _ _ _ hst hen2]
    simp

theorem oneWord_insertZonesOf (doc : List Cell) (a : Option Href)
    (hD : ∀ c ∈ doc, c.isSeparator = false ∧ c.whiteSpace = false ∧ c.atWordSeparator = false)
    (hA : ∀ c ∈ doc, c.href = a) (hne : 0 < doc.length) (off : ℚ) (frames : ℚ → Int)
    (p q : Nat) (hp : p ≤ doc.length) (hq : q ≤ doc.length) :
    insertZonesOf frames { editorWith doc p q [] with clipOffset := off } =
      if a.isSome then some [⟨frames (hrefStartSec a + off), frames (hrefEndSec a + off)⟩]
      else some [] := by
  unfold insertZonesOf
  rw [oneWord_textZone doc a hD hA hne off p q hp hq]
  unfold getInsertZones
  simp only [editorWith, List.isEmpty_nil, if_true]
  split
  · next h =>
    split at h
    · cases h
      simp [processedZones_of_no_cut, *]
    · cases h
  · next h =>
    split at h
    · cases h
    · simp [*]

/-! ### What the cursor walks read from a document

The moves of the text cursor read the characters of the document and never the hrefs
of its anchors. `g` is a change of the cells that keeps every character. -/

theorem length_takeWhile_map (g : Cell → Cell) (p : Cell → Bool) (hp : ∀ c, p (g c) = p c)
    (l : List Cell) : ((l.map g).takeWhile p).length = (l.takeWhile p).length := by
  have : p ∘ g = p := funext hp
  rw [List.takeWhile_map, this, List.length_map]

theorem getElem?_map_pred (g : Cell → Cell) (p : Cell → Bool) (hp : ∀ c, p (g c) = p c)
    (l : List Cell) (i : Nat) : ((l.map g)[i]?).map p = (l[i]?).map p := by
  rw [List.getElem?_map, Option.map_map]
  have : p ∘ g = p := funext hp
  rw [this]

theorem isSeparator_map (g : Cell → Cell) (hch : ∀ c, (g c).ch = c.ch) (c : Cell) :
    (g c).isSeparator = c.isSeparator := by
  unfold Cell.isSeparator
  rw [hch]

theorem whiteSpace_map (g : Cell → Cell) (hch : ∀ c, (g c).ch = c.ch) (c : Cell) :
    (g c).whiteSpace = c.whiteSpace := by
  unfold Cell.whiteSpace
  rw [hch]

theorem atWordSeparator_map (g : Cell → Cell) (hch : ∀ c, (g c).ch = c.ch) (c : Cell) :
    (g c).atWordSeparator = c.atWordSeparator := by
  unfold Cell.atWordSeparator
  rw [hch]

theorem characterCount_map (g : Cell → Cell) (doc : List Cell) :
    characterCount (doc.map g) = characterCount doc := by
  unfold characterCount
  rw [List.length_map]

theorem blockCount_map (g : Cell → Cell) (hch : ∀ c, (g c).ch = c.ch) (doc : List Cell) :
    blockCount (doc.map g) = blockCount doc := by
  unfold blockCount
  have : Cell.isSeparator ∘ g = Cell.isSeparator := funext (isSeparator_map g hch)
  rw [List.filter_map, this, List.length_map]

theorem blockStart_map (g : Cell → Cell) (hch : ∀ c, (g c).ch = c.ch) (doc : List Cell)
    (p : Nat) : blockStart (doc.map g) p = blockStart doc p := by
  unfold blockStart
  rw [← List.map_take, ← List.map_reverse,
    length_takeWhile_map g (fun c => !c.isSeparator) (fun c => by
      show (!(g c).isSeparator) = !c.isSeparator
      rw [isSeparator_map g hch])]

theorem blockEnd_map (g : Cell → Cell) (hch : ∀ c, (g c).ch = c.ch) (doc : List Cell)
    (p : Nat) : blockEnd (doc.map g) p = blockEnd doc p := by
  unfold blockEnd
  rw [← List.map_drop,
    length_takeWhile_map g (fun c => !c.isSeparator) (fun c => by
      show (!(g c).isSeparator) = !c.isSeparator
      rw [isSeparator_map g hch])]

theorem blockText_map (g : Cell → Cell) (hch : ∀ c, (g c).ch = c.ch) (doc : List Cell)
    (p : Nat) : blockText (doc.map g) p = (blockText doc p).map g := by
  unfold blockText
  rw [blockStart_map g hch, blockEnd_map g hch, ← List.map_drop, ← List.map_take]

theorem skipBack_map (g : Cell → Cell) (p : Cell → Bool) (hp : ∀ c, p (g c) = p c)
    (blk : List Cell) (pos : Nat) : skipBack p (blk.map g) pos = skipBack p blk pos := by
  unfold skipBack
  rw [← List.map_take, ← List.map_reverse, length_takeWhile_map g p hp]

theorem skipAhead_map (g : Cell → Cell) (p : Cell → Bool) (hp : ∀ c, p (g c) = p c)
    (blk : List Cell) (pos : Nat) : skipAhead p (blk.map g) pos = skipAhead p blk pos := by
  unfold skipAhead
  rw [← List.map_drop, length_takeWhile_map g p hp]

theorem wordChar_map (g : Cell → Cell) (hch : ∀ c, (g c).ch = c.ch) (c : Cell) :
    (fun c : Cell => !c.whiteSpace && !c.atWordSeparator) (g c) =
      (fun c : Cell => !c.whiteSpace && !c.atWordSeparator) c := by
  show (!(g c).whiteSpace && !(g c).atWordSeparator) = (!c.whiteSpace && !c.atWordSeparator)
  rw [whiteSpace_map g hch, atWordSeparator_map g hch]

theorem previousWordPosition_map (g : Cell → Cell) (hch : ∀ c, (g c).ch = c.ch)
    (blk : List Cell) (oldPos : Nat) :
    previousWordPosition (blk.map g) oldPos = previousWordPosition blk oldPos := by
  unfold previousWordPosition
  simp only [List.length_map, skipBack_map g Cell.whiteSpace (whiteSpace_map g hch),
    skipBack_map g Cell.atWordSeparator (atWordSeparator_map g hch),
    skipBack_map g (fun c => !c.whiteSpace && !c.atWordSeparator) (wordChar_map g hch),
    getElem?_map_pred g Cell.atWordSeparator (atWordSeparator_map g hch)]

theorem startOfWord_map (g : Cell → Cell) (hch : ∀ c, (g c).ch = c.ch) (doc : List Cell)
    (position : Nat) : startOfWord (doc.map g) position = startOfWord doc position := by
  unfold startOfWord
  simp only [blockStart_map g hch, blockText_map g hch, List.length_map,
    previousWordPosition_map g hch,
    getElem?_map_pred g (fun c => c.whiteSpace || c.atWordSeparator) (fun c => by
      show ((g c).whiteSpace || (g c).atWordSeparator) = (c.whiteSpace || c.atWordSeparator)
      rw [whiteSpace_map g hch, atWordSeparator_map g hch])]

theorem endOfWord_map (g : Cell → Cell) (hch : ∀ c, (g c).ch = c.ch) (doc : List Cell)
    (position : Nat) : endOfWord (doc.map g) position = endOfWord doc position := by
  unfold endOfWord
  simp only [blockStart_map g hch, blockText_map g hch, List.length_map,
    skipAhead_map g Cell.atWordSeparator (atWordSeparator_map g hch),
    skipAhead_map g (fun c => !c.whiteSpace && !c.atWordSeparator) (wordChar_map g hch),
    getElem?_map_pred g Cell.atWordSeparator (atWordSeparator_map g hch)]

theorem setPosition_map (g : Cell → Cell) (doc : List Cell) (c : TextCursor) (pos : Int) :
    TextCursor.setPosition (doc.map g) c pos = TextCursor.setPosition doc c pos := by
  unfold TextCursor.setPosition
  rw [characterCount_map]

theorem selectWordUnderCursor_map (g : Cell → Cell) (hch : ∀ c, (g c).ch = c.ch)
    (doc : List Cell) (c : TextCursor) :
    TextCursor.selectWordUnderCursor (doc.map g) c = TextCursor.selectWordUnderCursor doc c := by
  unfold TextCursor.selectWordUnderCursor TextCursor.moveEndOfWordKeepAnchor
    TextCursor.moveStartOfWord
  simp only [startOfWord_map g hch, endOfWord_map g hch]

theorem moveEndOfBlock_map (g : Cell → Cell) (hch : ∀ c, (g c).ch = c.ch) (doc : List Cell)
    (c : TextCursor) :
    TextCursor.moveEndOfBlock (doc.map g) c = TextCursor.moveEndOfBlock doc c := by
  unfold TextCursor.moveEndOfBlock
  rw [blockEnd_map g hch]

theorem moveNextBlock_map (g : Cell → Cell) (hch : ∀ c, (g c).ch = c.ch) (doc : List Cell)
    (c : TextCursor) :
    TextCursor.moveNextBlock (doc.map g) c = TextCursor.moveNextBlock doc c := by
  unfold TextCursor.moveNextBlock
  rw [blockEnd_map g hch, List.length_map]

theorem seekForward_map (g : Cell → Cell) (hch : ∀ c, (g c).ch = c.ch) (doc : List Cell)
    (limit : Int) (n : Nat) (start : Int) (c : TextCursor) :
    seekForward (doc.map g) limit n start c = seekForward doc limit n start c := by
  induction n generalizing start c with
  | zero => rfl
  | succ n ih =>
    unfold seekForward
    rw [ih, setPosition_map, selectWordUnderCursor_map g hch]

theorem seekBackward_map (g : Cell → Cell) (hch : ∀ c, (g c).ch = c.ch) (doc : List Cell)
    (start : Int) (n : Nat) (e : Int) (c : TextCursor) :
    seekBackward (doc.map g) start n e c = seekBackward doc start n e c := by
  induction n generalizing e c with
  | zero => rfl
  | succ n ih =>
    unfold seekBackward
    rw [ih, setPosition_map, selectWordUnderCursor_map g hch]

theorem anchorAtCursor_map (g : Cell → Cell)
    (hsome : ∀ c, (g c).href.isSome = c.href.isSome) (doc : List Cell) (c : TextCursor) :
    (anchorAtCursor (doc.map g) c).isSome = (anchorAtCursor doc c).isSome := by
  unfold anchorAtCursor
  rw [List.getElem?_map]
  cases doc[c.position]? with
  | none => rfl
  | some cell => exact hsome cell

theorem rebuildBlock_map (g : Cell → Cell) (hch : ∀ c, (g c).ch = c.ch)
    (hsome : ∀ c, (g c).href.isSome = c.href.isSome) (doc : List Cell) (off : ℚ)
    (st st2 : TextCursor × List (ℚ × ℚ)) (h1 : st2.1 = st.1) (h2 : st2.2.length = st.2.length) :
    (rebuildBlock (doc.map g) off st2).1 = (rebuildBlock doc off st).1 ∧
    (rebuildBlock (doc.map g) off st2).2.length = (rebuildBlock doc off st).2.length := by
  unfold rebuildBlock
  simp only [h1, characterCount_map, setPosition_map, selectWordUnderCursor_map g hch,
    seekForward_map g hch, seekBackward_map g hch, moveEndOfBlock_map g hch,
    moveNextBlock_map g hch, anchorAtCursor_map g hsome, true_and]
  split <;> simp [h2]

theorem rebuildZones_map (g : Cell → Cell) (hch : ∀ c, (g c).ch = c.ch)
    (hsome : ∀ c, (g c).href.isSome = c.href.isSome) (ed : Editor) :
    (rebuildZones { ed with doc := ed.doc.map g }).speechZones.length =
      (rebuildZones ed).speechZones.length := by
  unfold rebuildZones
  simp only [blockCount_map g hch]
  have key : ∀ (l : List Nat) (st st2 : TextCursor × List (ℚ × ℚ)), st2.1 = st.1 →
      st2.2.length = st.2.length →
      (l.foldl (fun st _ => rebuildBlock (ed.doc.map g) ed.clipOffset st) st2).2.length =
      (l.foldl (fun st _ => rebuildBlock ed.doc ed.clipOffset st) st).2.length := by
    intro l
    induction l with
    | nil => intro st st2 _ h2; exact h2
    | cons a rest ih =>
      intro st st2 h1 h2
      simp only [List.foldl_cons]
      obtain ⟨k1, k2⟩ := rebuildBlock_map g hch hsome ed.doc ed.clipOffset st st2 h1 h2
      exact ih _ _ k1 k2
  exact key _ _ _ rfl rfl

theorem probeAnchors_map (g : Cell → Cell) (hch : ∀ c, (g c).ch = c.ch)
    (hsome : ∀ c, (g c).href.isSome = c.href.isSome) (doc : List Cell) (start e : Int)
    (c0 : TextCursor) :
    (probeAnchors (doc.map g) start e c0).1.isSome = (probeAnchors doc start e c0).1.isSome ∧
    (probeAnchors (doc.map g) start e c0).2.isSome = (probeAnchors doc start e c0).2.isSome := by
  unfold probeAnchors
  simp only [setPosition_map, selectWordUnderCursor_map g hch, seekForward_map g hch,
    seekBackward_map g hch, anchorAtCursor_map g hsome, and_self]

theorem textZone_map (g : Cell → Cell) (hch : ∀ c, (g c).ch = c.ch)
    (hsome : ∀ c, (g c).href.isSome = c.href.isSome) (ed : Editor) :
    (textZone { ed with doc := ed.doc.map g }).isSome = (textZone ed).isSome := by
  unfold textZone
  simp only [setPosition_map, List.length_map]
  split
  · obtain ⟨k1, k2⟩ := probeAnchors_map g hch hsome ed.doc
      (ed.textCursor.selectionStart : Int) ((ed.textCursor.selectionEnd : Int) - 1)
      (TextCursor.setPosition ed.doc ed.textCursor (ed.textCursor.selectionStart : Int))
    rw [k1, k2]
    split <;> rfl
  · obtain ⟨k1, k2⟩ := probeAnchors_map g hch hsome ed.doc 0 ((ed.doc.length : Int) - 1)
      { anchor := 0, position := 0 }
    rw [k1, k2]
    split <;> rfl

/-- Two documents with the same characters and with anchors at the same places
become the same document when every href is replaced by one fixed href. -/
theorem map_eq_of_same_anchors (h0 : Href) (doc doc2 : List Cell)
    (hch : doc.map Cell.ch = doc2.map Cell.ch)
    (hanchors : doc.map (fun c => c.href.isSome) = doc2.map (fun c => c.href.isSome)) :
    doc.map (fun c => ({ ch := c.ch, href := c.href.map (fun _ => h0) } : Cell)) =
      doc2.map (fun c => ({ ch := c.ch, href := c.href.map (fun _ => h0) } : Cell)) := by
  induction doc generalizing doc2 with
  | nil =>
    cases doc2 with
    | nil => rfl
    | cons b rest => simp at hch
  | cons a rest ih =>
    cases doc2 with
    | nil => simp at hch
    | cons b rest2 =>
      simp only [List.map_cons, List.cons.injEq] at hch hanchors ⊢
      refine ⟨?_, ih rest2 hch.2 hanchors.2⟩
      rw [hch.1]
      have h1 := hanchors.1
      cases ha : a.href <;> cases hb : b.href <;> simp_all

theorem isSome_map_fixed (h0 : Href) (a : Option Href) :
    (a.map (fun _ => h0)).isSome = a.isSome := by
  cases a <;> rfl

theorem rebuildZones_length_of_same_anchors (ed : Editor) (doc2 : List Cell)
    (hch : ed.doc.map Cell.ch = doc2.map Cell.ch)
    (hanchors : ed.doc.map (fun c => c.href.isSome) = doc2.map (fun c => c.href.isSome)) :
    (rebuildZones { ed with doc := doc2 }).speechZones.length =
      (rebuildZones ed).speechZones.length := by
  have e1 := rebuildZones_map
    (fun c => ({ ch := c.ch, href := c.href.map (fun _ => (⟨"", 0, 0⟩ : Href)) } : Cell))
    (fun _ => rfl) (fun c => isSome_map_fixed _ c.href) ed
  have e2 := rebuildZones_map
    (fun c => ({ ch := c.ch, href := c.href.map (fun _ => (⟨"", 0, 0⟩ : Href)) } : Cell))
    (fun _ => rfl) (fun c => isSome_map_fixed _ c.href) { ed with doc := doc2 }
  simp only at e1 e2
  rw [← e1, ← e2, map_eq_of_same_anchors ⟨"", 0, 0⟩ ed.doc doc2 hch hanchors]

theorem textZone_isSome_of_same_anchors (ed : Editor) (doc2 : List Cell)
    (hch : ed.doc.map Cell.ch = doc2.map Cell.ch)
    (hanchors : ed.doc.map (fun c => c.href.isSome) = doc2.map (fun c => c.href.isSome)) :
    (textZone { ed with doc := doc2 }).isSome = (textZone ed).isSome := by
  have e1 := textZone_map
    (fun c => ({ ch := c.ch, href := c.href.map (fun _ => (⟨"", 0, 0⟩ : Href)) } : Cell))
    (fun _ => rfl) (fun c => isSome_map_fixed _ c.href) ed
  have e2 := textZone_map
    (fun c => ({ ch := c.ch, href := c.href.map (fun _ => (⟨"", 0, 0⟩ : Href)) } : Cell))
    (fun _ => rfl) (fun c => isSome_map_fixed _ c.href) { ed with doc := doc2 }
  simp only at e1 e2
  rw [← e1, ← e2, map_eq_of_same_anchors ⟨"", 0, 0⟩ ed.doc doc2 hch hanchors]

/-- C22 (as stated, fails on the code): in the href "2#abc:1.5" the start field "abc"
is not a number, yet decoding gives the pair (0, 1.5); from a word with this href
`rebuildZones` derives the zone (0, 1.5), `getInsertZones` the zone (0, 37) at 25
frames per second, and `deleteItem` on the selected word appends the cut (0, 37).
In "2#1.5" the end field is missing and decoding gives (1.5, 0). -/
theorem malformed_href_gives_zone_and_cut :
    isNumber (startField "2#abc:1.5".toList) = false ∧
    decodeHref "2#abc:1.5".toList = (0, 3 / 2) ∧
    (rebuildZones (editorWith (anchorCells "word" "2#abc:1.5") 0 0 [])).speechZones =
      [(0, 3 / 2)] ∧
    insertZonesOf (secondsToFrames 25) (editorWith (anchorCells "word" "2#abc:1.5") 0 0 []) =
      some [⟨0, 37⟩] ∧
    (deleteItem (secondsToFrames 25)
      (editorWith (anchorCells "word" "2#abc:1.5") 0 4 [])).cutZones = [⟨0, 37⟩] ∧
    isNumber (endField "2#1.5".toList) = false ∧
    decodeHref "2#1.5".toList = (3 / 2, 0) := by
  refine ⟨by decide!, by decide!, by decide!, by decide!, by decide!, by decide!, by decide!⟩

/-- C22 (amended): decoding an href never fails. A start field or an end field that
`toDouble` cannot read as a number counts as 0, and a time pair is always produced.
`rebuildZones` and `getInsertZones` test only that the anchors they find are not
empty: two documents with the same characters and with anchors at the same places
give the same number of zones in `rebuildZones`, and the text path of
`getInsertZones` derives a zone from one exactly when it does from the other,
whatever the hrefs hold. On a block of one word `w` of two or more characters under
any anchor `a`, `rebuildZones` derives the zone of the two decoded times when `a` is
not empty, `getInsertZones` returns the zone of their frames when `a` is not empty,
for every text cursor (`p`, `q`), and `deleteItem` on the selected word appends the
cut of their frames when `a` is not empty and the decoded start is less than the
decoded end. -/
theorem zones_whatever_the_hrefs_hold (ed : Editor) (doc2 : List Cell) (href : List Char)
    (w : List Char) (a : Option Href) (off : ℚ) (frames : ℚ → Int) (p q : Nat)
    (hch : ed.doc.map Cell.ch = doc2.map Cell.ch)
    (hanchors : ed.doc.map (fun c => c.href.isSome) = doc2.map (fun c => c.href.isSome))
    (hw : ∀ ch ∈ w, wordChar ch = true) (hlen2 : 2 ≤ w.length)
    (hp : p ≤ w.length) (hq : q ≤ w.length) :
    (isNumber (startField href) = false → (decodeHref href).1 = 0) ∧
    (isNumber (endField href) = false → (decodeHref href).2 = 0) ∧
    (rebuildZones { ed with doc := doc2 }).speechZones.length =
      (rebuildZones ed).speechZones.length ∧
    (textZone { ed with doc := doc2 }).isSome = (textZone ed).isSome ∧
    (rebuildZones { editorWith (wordUnder w a) 0 0 [] with clipOffset := off }).speechZones =
      (if a.isSome then [(hrefStartSec a + off, hrefEndSec a + off)] else []) ∧
    insertZonesOf frames { editorWith (wordUnder w a) p q [] with clipOffset := off } =
      (if a.isSome then some [⟨frames (hrefStartSec a + off), frames (hrefEndSec a + off)⟩]
       else some []) ∧
    (deleteItem frames
      { editorWith (wordUnder w a) 0 (wordUnder w a).length [] with clipOffset := off }).cutZones =
      (if a.isSome ∧ hrefStartSec a + off < hrefEndSec a + off then
        [⟨frames (hrefStartSec a + off), frames (hrefEndSec a + off)⟩]
       else []) := by
  have hl : (wordUnder w a).length = w.length := by
    unfold wordUnder
    rw [List.length_map]
  have hlen : 0 < (wordUnder w a).length := by
    rw [hl]
    omega
  exact ⟨fun h => toDouble_of_not_number _ h, fun h => toDouble_of_not_number _ h,
    rebuildZones_length_of_same_anchors ed doc2 hch hanchors,
    textZone_isSome_of_same_anchors ed doc2 hch hanchors,
    oneWord_rebuildZones _ a (wordUnder_plain w a hw) (wordUnder_href w a) hlen off,
    oneWord_insertZonesOf _ a (wordUnder_plain w a hw) (wordUnder_href w a) hlen off frames p q
      (by rw [hl]; exact hp) (by rw [hl]; exact hq),
    oneWord_deleteItem _ a (wordUnder_plain w a hw) (wordUnder_href w a) hlen off frames⟩

/-- C22 (amended) at a concrete input: the word "word" under the href "2#0.5:1.5"
and under the malformed href "2#abc:1.5" gives one zone in both documents, and the
text path of `getInsertZones` derives a zone from both; on the block "word" under
the malformed href, `rebuildZones` derives the zone of the decoded times (0, 1.5). -/
theorem zones_whatever_the_hrefs_hold_witness :
    ((anchorCells "word" "2#0.5:1.5").map Cell.ch =
      (anchorCells "word" "2#abc:1.5").map Cell.ch ∧
     (anchorCells "word" "2#0.5:1.5").map (fun c => c.href.isSome) =
      (anchorCells "word" "2#abc:1.5").map (fun c => c.href.isSome) ∧
     (∀ ch ∈ "word".toList, wordChar ch = true) ∧ 2 ≤ "word".toList.length ∧
     0 ≤ "word".toList.length ∧ 4 ≤ "word".toList.length) ∧
    (rebuildZones { editorWith (anchorCells "word" "2#0.5:1.5") 0 0 [] with
      doc := anchorCells "word" "2#abc:1.5" }).speechZones.length =
      (rebuildZones (editorWith (anchorCells "word" "2#0.5:1.5") 0 0 [])).speechZones.length ∧
    (textZone { editorWith (anchorCells "word" "2#0.5:1.5") 0 0 [] with
      doc := anchorCells "word" "2#abc:1.5" }).isSome =
      (textZone (editorWith (anchorCells "word" "2#0.5:1.5") 0 0 [])).isSome ∧
    (rebuildZones { editorWith (wordUnder "word".toList (anchorOf "2#abc:1.5")) 0 0 [] with
      clipOffset := 0 }).speechZones =
      (if (anchorOf "2#abc:1.5").isSome then
        [(hrefStartSec (anchorOf "2#abc:1.5") + 0, hrefEndSec (anchorOf "2#abc:1.5") + 0)]
       else []) :=
  have h := zones_whatever_the_hrefs_hold (editorWith (anchorCells "word" "2#0.5:1.5") 0 0 [])
    (anchorCells "word" "2#abc:1.5") "2#abc:1.5".toList "word".toList (anchorOf "2#abc:1.5") 0
    (secondsToFrames 25) 0 4 (by decide!) (by decide!) (by decide) (by decide) (by decide)
    (by decide)
  ⟨⟨by decide!, by decide!, by decide, by decide, by decide, by decide⟩,
    h.2.2.1, h.2.2.2.1, h.2.2.2.2.1⟩

end Kdenlive
